import Mathlib

/-!
Verification of the deepsel schema-synchronization engine against its
specification.  The engine (reflector, differ, planner, executor) is
embedded shallowly; the data model follows spec section 3 and the
component contracts follow spec section 4.
-/

namespace Deepsel

/-- Modelled from the spec: logical type tags over SQL types
(`Integer`, `BigInteger`, `Boolean`, `Float`, `Text`, `VarChar(n)`,
`Enum(name)`), spec section 3. -/
inductive ColType where
  | integer
  | bigInteger
  | boolean
  | float
  | text
  | varchar (n : Nat)
  | enumType (name : String)
deriving DecidableEq, Repr

/-- Modelled from the spec: a column of a table (spec section 3 data model). -/
structure Column where
  name : String
  type : ColType
  nullable : Bool
  default : Option String
  identity : Bool
deriving DecidableEq, Repr

/-- Modelled from the spec: a single-column foreign key (spec section 3). -/
structure ForeignKey where
  localCol : String
  foreignTable : String
  foreignCol : String
deriving DecidableEq, Repr

/-- Modelled from the spec: a table with columns, primary key, unique
constraints, non-unique indexes and foreign keys (spec section 3). -/
structure Table where
  name : String
  columns : List Column
  primaryKey : List String
  uniques : List (List String)
  indexes : List (List String)
  foreignKeys : List ForeignKey
deriving DecidableEq, Repr

/-- Modelled from the spec: an enumerated type with its ordered labels. -/
structure EnumType where
  name : String
  labels : List String
deriving DecidableEq, Repr

/-- Modelled from the spec: a schema is a collection of tables and enums. -/
structure Schema where
  tables : List Table
  enums : List EnumType
deriving DecidableEq, Repr

/-- Modelled from the spec: the error taxonomy relevant to the differ and
executor (spec section 7): `UnsupportedDiff` for enum label removal or
reordering, `ExecutionError` for a failed DDL statement. -/
inductive EngineError where
  | unsupportedDiff (enumName : String)
  | executionError
deriving DecidableEq, Repr

/-- Modelled from the spec: the DDL operations of a Plan (spec sections 4.3,
4.4 and 6). -/
inductive Op where
  | createEnum (name : String) (labels : List String)
  | addEnumValues (name : String) (newLabels : List String)
  | dropEnum (name : String)
  | createTable (t : Table)
  | dropTable (name : String)
  | addColumn (table : String) (c : Column)
  | dropColumn (table : String) (col : String)
  | alterColumnType (table : String) (col : String) (newType : ColType)
  | alterColumnNullable (table : String) (col : String) (nullable : Bool)
  | alterColumnDefault (table : String) (col : String) (default : Option String)
  | addUnique (table : String) (cols : List String)
  | dropUnique (table : String) (cols : List String)
  | addIndex (table : String) (cols : List String)
  | dropIndex (table : String) (cols : List String)
  | addForeignKey (table : String) (fk : ForeignKey)
  | dropForeignKey (table : String) (localCol : String)
  | changePrimaryKey (table : String) (cols : List String)
deriving DecidableEq, Repr

/-! ### Lookup helpers (identity is by name throughout, spec section 3) -/

def findTable (s : Schema) (n : String) : Option Table :=
  s.tables.find? (fun t => t.name == n)

def findEnum (s : Schema) (n : String) : Option EnumType :=
  s.enums.find? (fun e => e.name == n)

def findColumn (t : Table) (n : String) : Option Column :=
  t.columns.find? (fun c => c.name == n)

def fkByLocal (t : Table) (c : String) : Option ForeignKey :=
  t.foreignKeys.find? (fun fk => fk.localCol == c)

def tableNames (s : Schema) : List String := s.tables.map (fun t => t.name)

def enumNames (s : Schema) : List String := s.enums.map (fun e => e.name)

/-- Whether a foreign key's referenced table and column exist in the schema. -/
def fkTargetOk (s : Schema) (fk : ForeignKey) : Bool :=
  ((findTable s fk.foreignTable).bind (fun ft => findColumn ft fk.foreignCol)).isSome

/-- Modelled from the spec: well-formedness invariants of a schema
(spec section 3): table and enum names unique, column names unique per
table, at most one foreign key per local column, every foreign key's
local column on the owning table and its target present in the schema. -/
def Schema.WF (s : Schema) : Prop :=
  (tableNames s).Nodup ∧ (enumNames s).Nodup ∧
    ∀ t ∈ s.tables,
      (t.columns.map (fun c => c.name)).Nodup ∧
      (t.foreignKeys.map (fun fk => fk.localCol)).Nodup ∧
      ∀ fk ∈ t.foreignKeys,
        (findColumn t fk.localCol).isSome = true ∧ fkTargetOk s fk = true

instance : DecidablePred Schema.WF := fun s => by
  unfold Schema.WF; infer_instance

/-! ### Catalog Reflector -/

/-- Modelled from the spec: the Catalog Reflector (spec section 4.1).  The
live database state is itself modelled as a `Schema`; reflection returns
it with the migration-bookkeeping table `alembic_version` excluded. -/
def reflect (db : Schema) : Schema :=
  { tables := db.tables.filter (fun t => t.name != "alembic_version")
    enums := db.enums }

/-! ### Differ -/

/-- Whether the second label list extends the first by appending new
labels (the first is an initial segment of the second). -/
def labelsExtend : List String → List String → Bool
  | [], _ => true
  | _ :: _, [] => false
  | a :: as, b :: bs => a == b && labelsExtend as bs

/-- Modelled from the spec: the enum part of the differ (spec section 4.3,
item 4): for enums present in both with differing label sequences, emit
`AddEnumValues` with the appended labels; removal or reordering is an
`UnsupportedDiff` failure. -/
def diffEnumAdds (liveEnums : List EnumType) :
    List EnumType → Except EngineError (List (String × List String))
  | [] => .ok []
  | e :: rest =>
    match liveEnums.find? (fun le => le.name == e.name) with
    | none => diffEnumAdds liveEnums rest
    | some le =>
      if le.labels = e.labels then diffEnumAdds liveEnums rest
      else if labelsExtend le.labels e.labels then
        (diffEnumAdds liveEnums rest).map
          (fun l => (e.name, e.labels.drop le.labels.length) :: l)
      else .error (.unsupportedDiff e.name)

/-- Modelled from the spec: the per-table edits of a `SchemaDiff`
(spec section 4.3, item 3). -/
structure TableDiff where
  table : String
  addColumns : List Column
  dropColumns : List String
  alterTypes : List (String × ColType)
  alterNullables : List (String × Bool)
  alterDefaults : List (String × Option String)
  changePK : Option (List String)
  addUniques : List (List String)
  dropUniques : List (List String)
  addIndexes : List (List String)
  dropIndexes : List (List String)
  addFKs : List ForeignKey
  dropFKs : List String
  alterFKs : List ForeignKey
deriving DecidableEq, Repr

/-- Modelled from the spec: the differ's table reconciliation
(spec section 4.3): set differences keyed on names and on ordered column
tuples, foreign-key identity by local column name. -/
def diffTable (lt dt : Table) : TableDiff :=
  { table := dt.name
    addColumns := dt.columns.filter (fun c => (findColumn lt c.name).isNone)
    dropColumns :=
      (lt.columns.filter (fun c => (findColumn dt c.name).isNone)).map (fun c => c.name)
    alterTypes := dt.columns.filterMap (fun c =>
      match findColumn lt c.name with
      | some lc => if lc.type ≠ c.type then some (c.name, c.type) else none
      | none => none)
    alterNullables := dt.columns.filterMap (fun c =>
      match findColumn lt c.name with
      | some lc => if lc.nullable ≠ c.nullable then some (c.name, c.nullable) else none
      | none => none)
    alterDefaults := dt.columns.filterMap (fun c =>
      match findColumn lt c.name with
      | some lc => if lc.default ≠ c.default then some (c.name, c.default) else none
      | none => none)
    changePK := if lt.primaryKey ≠ dt.primaryKey then some dt.primaryKey else none
    addUniques := dt.uniques.filter (fun u => decide (u ∉ lt.uniques))
    dropUniques := lt.uniques.filter (fun u => decide (u ∉ dt.uniques))
    addIndexes := dt.indexes.filter (fun u => decide (u ∉ lt.indexes))
    dropIndexes := lt.indexes.filter (fun u => decide (u ∉ dt.indexes))
    addFKs := dt.foreignKeys.filter (fun fk => (fkByLocal lt fk.localCol).isNone)
    dropFKs :=
      (lt.foreignKeys.filter
        (fun fk => (fkByLocal dt fk.localCol).isNone)).map (fun fk => fk.localCol)
    alterFKs := dt.foreignKeys.filterMap (fun fk =>
      match fkByLocal lt fk.localCol with
      | some lfk =>
        if lfk.foreignTable ≠ fk.foreignTable ∨ lfk.foreignCol ≠ fk.foreignCol then
          some fk
        else none
      | none => none) }

def TableDiff.isEmpty (td : TableDiff) : Bool :=
  td.addColumns.isEmpty && td.dropColumns.isEmpty && td.alterTypes.isEmpty &&
    td.alterNullables.isEmpty && td.alterDefaults.isEmpty && td.changePK.isNone &&
    td.addUniques.isEmpty && td.dropUniques.isEmpty && td.addIndexes.isEmpty &&
    td.dropIndexes.isEmpty && td.addFKs.isEmpty && td.dropFKs.isEmpty &&
    td.alterFKs.isEmpty

/-- Modelled from the spec: a structured `SchemaDiff` (spec section 4.3). -/
structure SchemaDiff where
  createTables : List Table
  dropTables : List String
  tableDiffs : List TableDiff
  createEnums : List EnumType
  addEnumValues : List (String × List String)
  dropEnums : List String
deriving DecidableEq, Repr

def SchemaDiff.empty : SchemaDiff :=
  { createTables := [], dropTables := [], tableDiffs := []
    createEnums := [], addEnumValues := [], dropEnums := [] }

def SchemaDiff.isEmpty (d : SchemaDiff) : Bool :=
  d.createTables.isEmpty && d.dropTables.isEmpty && d.tableDiffs.isEmpty &&
    d.createEnums.isEmpty && d.addEnumValues.isEmpty && d.dropEnums.isEmpty

/-- Modelled from the spec: the Differ (spec section 4.3).  Tables to
create, tables to drop (never `alembic_version`), per-table edits for
surviving tables, enum creations, extensions and drops.  Fails with
`UnsupportedDiff` when an enum label would be removed or reordered. -/
def computeDiff (live desired : Schema) : Except EngineError SchemaDiff :=
  match diffEnumAdds live.enums desired.enums with
  | .error e => .error e
  | .ok adds =>
    .ok
      { createTables := desired.tables.filter (fun t => (findTable live t.name).isNone)
        dropTables :=
          ((live.tables.filter (fun t =>
            (findTable desired t.name).isNone && t.name != "alembic_version")).map
              (fun t => t.name))
        tableDiffs := desired.tables.filterMap (fun t =>
          match findTable live t.name with
          | some lt =>
            let td := diffTable lt t
            if td.isEmpty then none else some td
          | none => none)
        createEnums := desired.enums.filter (fun e => (findEnum live e.name).isNone)
        addEnumValues := adds
        dropEnums :=
          (live.enums.filter (fun e => (findEnum desired e.name).isNone)).map
            (fun e => e.name) }

/-! ### Planner -/

/-- Modelled from the spec: referential safety (spec section 4.4, rules 3
and 4).  A live foreign key must be dropped when: its table is dropped;
the desired schema has no foreign key on its local column; the desired
foreign key on that column has a different target; its referenced table
is dropped; or its referenced column is dropped or retyped. -/
def shouldDropFK (live desired : Schema) (t : Table) (fk : ForeignKey) : Bool :=
  match findTable desired t.name with
  | none => true
  | some dt =>
    match fkByLocal dt fk.localCol with
    | none => true
    | some dfk =>
      decide (dfk.foreignTable ≠ fk.foreignTable ∨ dfk.foreignCol ≠ fk.foreignCol) ||
        (match findTable desired fk.foreignTable with
         | none => true
         | some dft =>
           match findTable live fk.foreignTable with
           | none => false
           | some lft =>
             match findColumn lft fk.foreignCol, findColumn dft fk.foreignCol with
             | some lc, some dc => decide (lc.type ≠ dc.type)
             | some _, none => true
             | none, _ => false)

/-- Modelled from the spec: a desired foreign key is (re-)added when its
table is newly created, when it is new on its local column, or when the
live foreign key on that column was dropped for referential safety
(spec section 4.4, rules 3 and 5). -/
def shouldAddFK (live desired : Schema) (t : Table) (fk : ForeignKey) : Bool :=
  match findTable live t.name with
  | none => true
  | some lt =>
    match fkByLocal lt fk.localCol with
    | none => true
    | some lfk => shouldDropFK live desired lt lfk

def createEnumOps (d : SchemaDiff) : List Op :=
  d.createEnums.map (fun e => Op.createEnum e.name e.labels)

def addEnumValueOps (d : SchemaDiff) : List Op :=
  d.addEnumValues.map (fun p => Op.addEnumValues p.1 p.2)

def dropFKOps (live desired : Schema) : List Op :=
  live.tables.flatMap (fun t =>
    (t.foreignKeys.filter (shouldDropFK live desired t)).map
      (fun fk => Op.dropForeignKey t.name fk.localCol))

def dropIndexOps (d : SchemaDiff) : List Op :=
  d.tableDiffs.flatMap (fun td => td.dropIndexes.map (fun cols => Op.dropIndex td.table cols))

def dropUniqueOps (d : SchemaDiff) : List Op :=
  d.tableDiffs.flatMap (fun td => td.dropUniques.map (fun cols => Op.dropUnique td.table cols))

def dropColumnOps (d : SchemaDiff) : List Op :=
  d.tableDiffs.flatMap (fun td => td.dropColumns.map (fun c => Op.dropColumn td.table c))

def dropTableOps (d : SchemaDiff) : List Op :=
  d.dropTables.map Op.dropTable

def createTableOps (d : SchemaDiff) : List Op :=
  d.createTables.map (fun t => Op.createTable { t with foreignKeys := [] })

def alterTypeOps (d : SchemaDiff) : List Op :=
  d.tableDiffs.flatMap (fun td =>
    td.alterTypes.map (fun p => Op.alterColumnType td.table p.1 p.2))

def alterNullableOps (d : SchemaDiff) : List Op :=
  d.tableDiffs.flatMap (fun td =>
    td.alterNullables.map (fun p => Op.alterColumnNullable td.table p.1 p.2))

def alterDefaultOps (d : SchemaDiff) : List Op :=
  d.tableDiffs.flatMap (fun td =>
    td.alterDefaults.map (fun p => Op.alterColumnDefault td.table p.1 p.2))

def addColumnOps (d : SchemaDiff) : List Op :=
  d.tableDiffs.flatMap (fun td => td.addColumns.map (fun c => Op.addColumn td.table c))

def addUniqueOps (d : SchemaDiff) : List Op :=
  d.tableDiffs.flatMap (fun td => td.addUniques.map (fun cols => Op.addUnique td.table cols))

def addIndexOps (d : SchemaDiff) : List Op :=
  d.tableDiffs.flatMap (fun td => td.addIndexes.map (fun cols => Op.addIndex td.table cols))

def changePKOps (d : SchemaDiff) : List Op :=
  d.tableDiffs.flatMap (fun td =>
    match td.changePK with
    | some cols => [Op.changePrimaryKey td.table cols]
    | none => [])

def addFKOps (live desired : Schema) : List Op :=
  desired.tables.flatMap (fun t =>
    (t.foreignKeys.filter (shouldAddFK live desired t)).map
      (fun fk => Op.addForeignKey t.name fk))

def dropEnumOps (d : SchemaDiff) : List Op :=
  d.dropEnums.map Op.dropEnum

/-- Modelled from the spec: the Planner (spec section 4.4).  Linearizes a
`SchemaDiff` into a Plan: enums first, then enum extensions, then the
drop phases (foreign keys, indexes, uniques, columns, tables), then
table creation without foreign keys, then column alterations and
additions, constraints, primary-key changes, foreign keys (including the
separate pass adding foreign keys of newly created tables), and enum
drops last. -/
def planDiff (live desired : Schema) (d : SchemaDiff) : List Op :=
  createEnumOps d ++ addEnumValueOps d ++ dropFKOps live desired ++
    dropIndexOps d ++ dropUniqueOps d ++ dropColumnOps d ++ dropTableOps d ++
    createTableOps d ++ alterTypeOps d ++ alterNullableOps d ++
    alterDefaultOps d ++ addColumnOps d ++ addUniqueOps d ++ addIndexOps d ++
    changePKOps d ++ addFKOps live desired ++ dropEnumOps d

/-- Phase rank of an operation in the plan ordering. -/
def Op.rank : Op → Nat
  | .createEnum .. => 0
  | .addEnumValues .. => 1
  | .dropForeignKey .. => 2
  | .dropIndex .. => 3
  | .dropUnique .. => 4
  | .dropColumn .. => 5
  | .dropTable .. => 6
  | .createTable .. => 7
  | .alterColumnType .. => 8
  | .alterColumnNullable .. => 9
  | .alterColumnDefault .. => 10
  | .addColumn .. => 11
  | .addUnique .. => 12
  | .addIndex .. => 13
  | .changePrimaryKey .. => 14
  | .addForeignKey .. => 15
  | .dropEnum .. => 16

/-! ### Executor semantics of single operations -/

def colTypeOk (db : Schema) : ColType → Bool
  | .enumType n => (findEnum db n).isSome
  | _ => true

def enumUsed (db : Schema) (n : String) : Bool :=
  db.tables.any (fun t => t.columns.any (fun c => decide (c.type = ColType.enumType n)))

def inboundFK (db : Schema) (tn cn : String) : Bool :=
  db.tables.any (fun t =>
    t.foreignKeys.any (fun fk => fk.foreignTable == tn && fk.foreignCol == cn))

def inboundFKTable (db : Schema) (tn : String) : Bool :=
  db.tables.any (fun t =>
    t.name != tn && t.foreignKeys.any (fun fk => fk.foreignTable == tn))

/-- Apply a transformation to the first table with the given name;
fails when the table is absent or the transformation fails. -/
def updateTables (n : String) (f : Table → Option Table) :
    List Table → Option (List Table)
  | [] => none
  | t :: ts =>
    if t.name = n then (f t).map (fun t' => t' :: ts)
    else (updateTables n f ts).map (fun ts' => t :: ts')

def updateTable (db : Schema) (n : String) (f : Table → Option Table) : Option Schema :=
  (updateTables n f db.tables).map (fun ts => { db with tables := ts })

/-- Append labels to the first enum with the given name. -/
def updateEnums (n : String) (ls : List String) :
    List EnumType → Option (List EnumType)
  | [] => none
  | e :: es =>
    if e.name = n then some ({ e with labels := e.labels ++ ls } :: es)
    else (updateEnums n ls es).map (fun es' => e :: es')

def setColumn (t : Table) (cn : String) (f : Column → Column) : Option Table :=
  if (findColumn t cn).isSome then
    some { t with columns := t.columns.map (fun c => if c.name = cn then f c else c) }
  else none

/-- Modelled from the spec: the effect of a single DDL statement on the
database (spec sections 4.5 and 6), with PostgreSQL-style failure
conditions: creating an existing object or dropping a missing one fails,
a column type must reference an existing enum, a foreign key needs an
existing target, a dropped table or column must not be referenced by a
remaining foreign key, and a retyped column must not be referenced by a
foreign key. -/
def applyOp (db : Schema) : Op → Option Schema
  | .createEnum n ls =>
    if (findEnum db n).isSome then none
    else some { db with enums := db.enums ++ [{ name := n, labels := ls }] }
  | .addEnumValues n ls =>
    (updateEnums n ls db.enums).map (fun es => { db with enums := es })
  | .dropEnum n =>
    if (findEnum db n).isSome && !(enumUsed db n) then
      some { db with enums := db.enums.filter (fun e => e.name != n) }
    else none
  | .createTable t =>
    if (findTable db t.name).isSome then none
    else if t.columns.all (fun c => colTypeOk db c.type) &&
        t.foreignKeys.all (fun fk =>
          fk.foreignTable == t.name || (findTable db fk.foreignTable).isSome) then
      some { db with tables := db.tables ++ [t] }
    else none
  | .dropTable n =>
    if (findTable db n).isSome && !(inboundFKTable db n) then
      some { db with tables := db.tables.filter (fun t => t.name != n) }
    else none
  | .addColumn tn c =>
    if colTypeOk db c.type then
      updateTable db tn (fun t =>
        if (findColumn t c.name).isSome then none
        else some { t with columns := t.columns ++ [c] })
    else none
  | .dropColumn tn cn =>
    if inboundFK db tn cn then none
    else
      updateTable db tn (fun t =>
        if (findColumn t cn).isSome && t.foreignKeys.all (fun fk => fk.localCol != cn) then
          some { t with columns := t.columns.filter (fun c => c.name != cn) }
        else none)
  | .alterColumnType tn cn ty =>
    if colTypeOk db ty && !(inboundFK db tn cn) then
      updateTable db tn (fun t => setColumn t cn (fun c => { c with type := ty }))
    else none
  | .alterColumnNullable tn cn b =>
    updateTable db tn (fun t => setColumn t cn (fun c => { c with nullable := b }))
  | .alterColumnDefault tn cn dflt =>
    updateTable db tn (fun t => setColumn t cn (fun c => { c with default := dflt }))
  | .addUnique tn cols =>
    updateTable db tn (fun t =>
      if decide (cols ∈ t.uniques) || !(cols.all (fun cn => (findColumn t cn).isSome)) then
        none
      else some { t with uniques := t.uniques ++ [cols] })
  | .dropUnique tn cols =>
    updateTable db tn (fun t =>
      if decide (cols ∈ t.uniques) then
        some { t with uniques := t.uniques.filter (fun u => decide (u ≠ cols)) }
      else none)
  | .addIndex tn cols =>
    updateTable db tn (fun t =>
      if decide (cols ∈ t.indexes) || !(cols.all (fun cn => (findColumn t cn).isSome)) then
        none
      else some { t with indexes := t.indexes ++ [cols] })
  | .dropIndex tn cols =>
    updateTable db tn (fun t =>
      if decide (cols ∈ t.indexes) then
        some { t with indexes := t.indexes.filter (fun u => decide (u ≠ cols)) }
      else none)
  | .addForeignKey tn fk =>
    match findTable db fk.foreignTable with
    | none => none
    | some ft =>
      if (findColumn ft fk.foreignCol).isSome then
        updateTable db tn (fun t =>
          if (fkByLocal t fk.localCol).isSome || (findColumn t fk.localCol).isNone then
            none
          else some { t with foreignKeys := t.foreignKeys ++ [fk] })
      else none
  | .dropForeignKey tn cn =>
    updateTable db tn (fun t =>
      if (fkByLocal t cn).isSome then
        some { t with foreignKeys := t.foreignKeys.filter (fun fk => fk.localCol != cn) }
      else none)
  | .changePrimaryKey tn cols =>
    updateTable db tn (fun t =>
      if cols.all (fun cn => (findColumn t cn).isSome) then
        some { t with primaryKey := cols }
      else none)

def applyPlan (db : Schema) : List Op → Option Schema
  | [] => some db
  | op :: ops =>
    match applyOp db op with
    | some db' => applyPlan db' ops
    | none => none

/-! ### Executor -/

/-- Modelled from the spec: the Executor's transactional loop
(spec section 4.5).  `snapshot` is the database state at transaction
begin; a failing statement discards all uncommitted work and restores
the snapshot (rollback), a successful end of plan commits.  Returns the
final database state, the committed DDL, and the error if any. -/
def execGo (snapshot cur : Schema) (done : List Op) :
    List Op → Schema × List Op × Option EngineError
  | [] => (cur, done.reverse, none)
  | op :: ops =>
    match applyOp cur op with
    | some cur' => execGo snapshot cur' (op :: done) ops
    | none => (snapshot, [], some .executionError)

/-- Modelled from the spec: one full engine run (spec sections 2 and 4.5):
reflect, diff, plan, execute transactionally.  Returns the final
database state, the committed DDL, and the error if any; on error the
state is the rolled-back original and no DDL is committed. -/
def runEngineState (db desired : Schema) : Schema × List Op × Option EngineError :=
  match computeDiff (reflect db) desired with
  | .error e => (db, [], some e)
  | .ok d => execGo db db [] (planDiff (reflect db) desired d)

/-- Modelled from the spec: the engine's caller-facing result
(spec section 6): success with the new state and executed plan, or a
propagated failure. -/
def runEngine (db desired : Schema) : Except EngineError (Schema × List Op) :=
  match runEngineState db desired with
  | (db', ddl, none) => .ok (db', ddl)
  | (_, _, some e) => .error e

/-! ### Desired Schema Compiler -/

/-- Modelled from the spec: a caller-declared column of the table
descriptor interface (spec section 6). -/
structure DeclColumn where
  name : String
  type : ColType
  nullable : Bool
  default : Option String
  primaryKey : Bool
  unique : Bool
  index : Bool
deriving DecidableEq, Repr

/-- Modelled from the spec: a caller-declared table descriptor
(spec section 6). -/
structure DeclTable where
  name : String
  columns : List DeclColumn
  compositeUniques : List (List String)
  compositeIndexes : List (List String)
  foreignKeys : List ForeignKey
deriving DecidableEq, Repr

/-- Modelled from the spec: identity synthesis — an Integer or BigInteger
primary-key column with no explicit default becomes an identity
(serial) column (spec section 4.1 canonicalization; exhibited by
`test_creates_table_with_bigint_primary_key`). -/
def compileColumn (c : DeclColumn) : Column :=
  { name := c.name
    type := c.type
    nullable := c.nullable
    default := c.default
    identity :=
      c.primaryKey &&
        (decide (c.type = ColType.integer) || decide (c.type = ColType.bigInteger)) &&
        c.default.isNone }

def hasOrganizationId (dt : DeclTable) : Bool :=
  dt.columns.any (fun c => c.name == "organization_id")

def inComposite (dt : DeclTable) (cn : String) : Bool :=
  dt.compositeUniques.any (fun u => decide (cn ∈ u))

/-- Modelled from the spec: synthesis of a unique constraint for a column
declared `unique` that is not part of an explicit composite unique
constraint.  The source widens the constraint into a composite
`(column, organization_id)` when the table has an `organization_id`
column (spec section 9 design note; exhibited by
`test_creates_composite_unique_constraint_with_organization_id`). -/
def synthUnique (dt : DeclTable) (c : DeclColumn) : List String :=
  if hasOrganizationId dt && c.name != "organization_id" then
    [c.name, "organization_id"]
  else [c.name]

/-- Modelled from the spec: the Desired Schema Compiler's per-table
output (spec section 4.2): compiled columns, primary key in declaration
order, synthesized plus explicit unique constraints, single-column and
composite indexes, and foreign keys preserved verbatim. -/
def compileTable (dt : DeclTable) : Table :=
  { name := dt.name
    columns := dt.columns.map compileColumn
    primaryKey := (dt.columns.filter (fun c => c.primaryKey)).map (fun c => c.name)
    uniques :=
      ((dt.columns.filter (fun c => c.unique && !(inComposite dt c.name))).map
        (synthUnique dt)) ++ dt.compositeUniques
    indexes :=
      ((dt.columns.filter (fun c => c.index)).map (fun c => [c.name])) ++
        dt.compositeIndexes
    foreignKeys := dt.foreignKeys }

/-- Modelled from the spec: the Desired Schema Compiler (spec section
4.2): compiles every declared table and collects the enum types
referenced by some column. -/
def compileDesired (enumDecls : List EnumType) (reg : List DeclTable) : Schema :=
  { tables := reg.map compileTable
    enums := enumDecls.filter (fun e =>
      reg.any (fun t => t.columns.any (fun c => decide (c.type = ColType.enumType e.name)))) }

/-! ## Basic lemmas about lookups -/

theorem find?_name_self {α : Type} (f : α → String) {l : List α} {t : α}
    (hnd : (l.map f).Nodup) (ht : t ∈ l) :
    l.find? (fun x => f x == f t) = some t := by
  induction l with
  | nil => cases ht
  | cons h tl ih =>
    simp only [List.map_cons, List.nodup_cons] at hnd
    rcases List.mem_cons.mp ht with rfl | htl
    · exact List.find?_cons_of_pos _ (by simp)
    · have hne : f h ≠ f t := fun he => hnd.1 (he ▸ List.mem_map_of_mem f htl)
      rw [List.find?_cons_of_neg _ (by simp [hne])]
      exact ih hnd.2 htl

theorem findTable_self {s : Schema} {t : Table} (hnd : (tableNames s).Nodup)
    (ht : t ∈ s.tables) : findTable s t.name = some t :=
  find?_name_self (fun t : Table => t.name) (by simpa [tableNames] using hnd) ht

theorem findEnum_self {s : Schema} {e : EnumType} (hnd : (enumNames s).Nodup)
    (he : e ∈ s.enums) : findEnum s e.name = some e :=
  find?_name_self (fun e : EnumType => e.name) (by simpa [enumNames] using hnd) he

theorem findColumn_self {t : Table} {c : Column}
    (hnd : (t.columns.map (fun c => c.name)).Nodup) (hc : c ∈ t.columns) :
    findColumn t c.name = some c :=
  find?_name_self (fun c : Column => c.name) hnd hc

theorem fkByLocal_self {t : Table} {fk : ForeignKey}
    (hnd : (t.foreignKeys.map (fun fk => fk.localCol)).Nodup) (hfk : fk ∈ t.foreignKeys) :
    fkByLocal t fk.localCol = some fk :=
  find?_name_self (fun fk : ForeignKey => fk.localCol) hnd hfk

theorem findTable_isSome_iff {s : Schema} {n : String} :
    (findTable s n).isSome = true ↔ n ∈ tableNames s := by
  constructor
  · intro h
    rcases Option.isSome_iff_exists.mp h with ⟨t, ht⟩
    have := List.mem_of_find?_eq_some ht
    have hn := List.find?_some ht
    simp only [beq_iff_eq] at hn
    exact hn ▸ List.mem_map_of_mem (fun t => t.name) this
  · intro h
    rcases List.mem_map.mp h with ⟨t, ht, rfl⟩
    cases hf : findTable s t.name with
    | some _ => simp
    | none =>
      exact absurd (List.find?_eq_none.mp hf t ht) (by simp)

theorem findTable_eq_none_iff {s : Schema} {n : String} :
    findTable s n = none ↔ n ∉ tableNames s := by
  rw [← findTable_isSome_iff]
  cases findTable s n <;> simp

theorem findEnum_isSome_iff {s : Schema} {n : String} :
    (findEnum s n).isSome = true ↔ n ∈ enumNames s := by
  constructor
  · intro h
    rcases Option.isSome_iff_exists.mp h with ⟨e, he⟩
    have := List.mem_of_find?_eq_some he
    have hn := List.find?_some he
    simp only [beq_iff_eq] at hn
    exact hn ▸ List.mem_map_of_mem (fun e => e.name) this
  · intro h
    rcases List.mem_map.mp h with ⟨e, he, rfl⟩
    cases hf : findEnum s e.name with
    | some _ => simp
    | none =>
      exact absurd (List.find?_eq_none.mp hf e he) (by simp)

theorem findEnum_eq_none_iff {s : Schema} {n : String} :
    findEnum s n = none ↔ n ∉ enumNames s := by
  rw [← findEnum_isSome_iff]
  cases findEnum s n <;> simp

/-- Reflection does not change the enums of the database. -/
theorem reflect_enums (db : Schema) : (reflect db).enums = db.enums := rfl

theorem tableNames_reflect {db : Schema} {n : String} :
    n ∈ tableNames (reflect db) ↔ n ∈ tableNames db ∧ n ≠ "alembic_version" := by
  simp only [tableNames, reflect, List.mem_map, List.mem_filter, bne_iff_ne, ne_eq]
  constructor
  · rintro ⟨t, ⟨ht, hne⟩, rfl⟩
    exact ⟨⟨t, ht, rfl⟩, hne⟩
  · rintro ⟨⟨t, ht, rfl⟩, hne⟩
    exact ⟨t, ⟨ht, hne⟩, rfl⟩

/-! ## Lemmas about table and enum updates -/

/-- A table transformation that never changes the table's name. -/
def NamePreserving (f : Table → Option Table) : Prop :=
  ∀ t t', f t = some t' → t'.name = t.name

theorem updateTables_names {n : String} {f : Table → Option Table}
    {ts ts' : List Table} (hf : NamePreserving f)
    (h : updateTables n f ts = some ts') :
    ts'.map (fun t => t.name) = ts.map (fun t => t.name) := by
  induction ts generalizing ts' with
  | nil => simp [updateTables] at h
  | cons t tl ih =>
    simp only [updateTables] at h
    split at h
    · rcases Option.map_eq_some'.mp h with ⟨t', hft, rfl⟩
      simp [hf _ _ hft]
    · rcases Option.map_eq_some'.mp h with ⟨tl', htl, rfl⟩
      simp [ih htl]

theorem updateTables_find?_other {n m : String} {f : Table → Option Table}
    {ts ts' : List Table} (hf : NamePreserving f)
    (h : updateTables n f ts = some ts') (hm : m ≠ n) :
    ts'.find? (fun t => t.name == m) = ts.find? (fun t => t.name == m) := by
  induction ts generalizing ts' with
  | nil => simp [updateTables] at h
  | cons t tl ih =>
    simp only [updateTables] at h
    split at h
    case isTrue heq =>
      rcases Option.map_eq_some'.mp h with ⟨t', hft, rfl⟩
      have hnm : t.name ≠ m := fun hc => hm ((hc ▸ heq : m = n))
      have hnm' : t'.name ≠ m := (hf _ _ hft) ▸ hnm
      rw [List.find?_cons_of_neg _ (by simp [hnm']), List.find?_cons_of_neg _ (by simp [hnm])]
    case isFalse hne =>
      rcases Option.map_eq_some'.mp h with ⟨tl', htl, rfl⟩
      by_cases hc : t.name = m
      · rw [List.find?_cons_of_pos _ (by simp [hc]), List.find?_cons_of_pos _ (by simp [hc])]
      · rw [List.find?_cons_of_neg _ (by simp [hc]), List.find?_cons_of_neg _ (by simp [hc])]
        exact ih htl

theorem updateTables_find?_self {n : String} {f : Table → Option Table}
    {ts ts' : List Table} (hf : NamePreserving f)
    (h : updateTables n f ts = some ts') :
    ∃ t t', ts.find? (fun x => x.name == n) = some t ∧ f t = some t' ∧
      ts'.find? (fun x => x.name == n) = some t' := by
  induction ts generalizing ts' with
  | nil => simp [updateTables] at h
  | cons t tl ih =>
    simp only [updateTables] at h
    split at h
    case isTrue heq =>
      rcases Option.map_eq_some'.mp h with ⟨t', hft, rfl⟩
      refine ⟨t, t', ?_, hft, ?_⟩
      · rw [List.find?_cons_of_pos _ (by simp [heq])]
      · rw [List.find?_cons_of_pos _ (by simp [hf _ _ hft, heq])]
    case isFalse hne =>
      rcases Option.map_eq_some'.mp h with ⟨tl', htl, rfl⟩
      rcases ih htl with ⟨a, a', h1, h2, h3⟩
      refine ⟨a, a', ?_, h2, ?_⟩
      · rw [List.find?_cons_of_neg _ (by simp [hne])]; exact h1
      · rw [List.find?_cons_of_neg _ (by simp [hne])]; exact h3

theorem updateTable_parts {db : Schema} {n : String} {f : Table → Option Table}
    {db' : Schema} (h : updateTable db n f = some db') :
    ∃ ts', updateTables n f db.tables = some ts' ∧
      db' = { db with tables := ts' } := by
  rcases Option.map_eq_some'.mp h with ⟨ts', hts, rfl⟩
  exact ⟨ts', hts, rfl⟩

theorem updateTable_enums {db : Schema} {n : String} {f : Table → Option Table}
    {db' : Schema} (h : updateTable db n f = some db') : db'.enums = db.enums := by
  rcases updateTable_parts h with ⟨ts', _, rfl⟩
  rfl

theorem updateEnums_find?_other {n m : String} {ls : List String}
    {es es' : List EnumType} (h : updateEnums n ls es = some es') (hm : m ≠ n) :
    es'.find? (fun e => e.name == m) = es.find? (fun e => e.name == m) := by
  induction es generalizing es' with
  | nil => simp [updateEnums] at h
  | cons e tl ih =>
    simp only [updateEnums] at h
    split at h
    case isTrue heq =>
      cases h
      have hnm : e.name ≠ m := fun hc => hm ((hc ▸ heq : m = n))
      rw [List.find?_cons_of_neg _ (by simp [hnm]), List.find?_cons_of_neg _ (by simp [hnm])]
    case isFalse hne =>
      rcases Option.map_eq_some'.mp h with ⟨tl', htl, rfl⟩
      by_cases hc : e.name = m
      · rw [List.find?_cons_of_pos _ (by simp [hc]), List.find?_cons_of_pos _ (by simp [hc])]
      · rw [List.find?_cons_of_neg _ (by simp [hc]), List.find?_cons_of_neg _ (by simp [hc])]
        exact ih htl

theorem updateEnums_find?_self {n : String} {ls : List String}
    {es es' : List EnumType} (h : updateEnums n ls es = some es') :
    ∃ e, es.find? (fun x => x.name == n) = some e ∧
      es'.find? (fun x => x.name == n) = some { e with labels := e.labels ++ ls } := by
  induction es generalizing es' with
  | nil => simp [updateEnums] at h
  | cons e tl ih =>
    simp only [updateEnums] at h
    split at h
    case isTrue heq =>
      cases h
      refine ⟨e, ?_, ?_⟩
      · rw [List.find?_cons_of_pos _ (by simp [heq])]
      · rw [List.find?_cons_of_pos _ (by simp [heq])]
    case isFalse hne =>
      rcases Option.map_eq_some'.mp h with ⟨tl', htl, rfl⟩
      rcases ih htl with ⟨a, h1, h2⟩
      refine ⟨a, ?_, ?_⟩
      · rw [List.find?_cons_of_neg _ (by simp [hne])]; exact h1
      · rw [List.find?_cons_of_neg _ (by simp [hne])]; exact h2

/-! ## Lemmas about plan application and the executor -/

theorem applyPlan_append (db : Schema) (l1 l2 : List Op) :
    applyPlan db (l1 ++ l2) = (applyPlan db l1).bind (fun db1 => applyPlan db1 l2) := by
  induction l1 generalizing db with
  | nil => simp [applyPlan]
  | cons op ops ih =>
    simp only [List.cons_append, applyPlan]
    cases applyOp db op <;> simp [ih]

/-- Committing only happens when every statement succeeded: a successful
executor run applies exactly the whole plan. -/
theorem execGo_ok {snapshot cur db' : Schema} {ddl done ops : List Op}
    (h : execGo snapshot cur done ops = (db', ddl, none)) :
    applyPlan cur ops = some db' ∧ ddl = done.reverse ++ ops := by
  induction ops generalizing cur done with
  | nil =>
    simp only [execGo, Prod.mk.injEq] at h
    simp [applyPlan, h.1, h.2.1]
  | cons op ops ih =>
    simp only [execGo] at h
    cases hop : applyOp cur op with
    | some cur' =>
      rw [hop] at h
      rcases ih h with ⟨h1, h2⟩
      constructor
      · simp [applyPlan, hop, h1]
      · simpa using h2
    | none =>
      rw [hop] at h
      simp at h

/-- A failing executor run rolls back to the snapshot and commits no DDL. -/
theorem execGo_err {snapshot cur db' : Schema} {ddl done ops : List Op}
    {e : EngineError} (h : execGo snapshot cur done ops = (db', ddl, some e)) :
    db' = snapshot ∧ ddl = [] := by
  induction ops generalizing cur done with
  | nil => simp [execGo] at h
  | cons op ops ih =>
    simp only [execGo] at h
    cases hop : applyOp cur op with
    | some cur' =>
      rw [hop] at h
      exact ih h
    | none =>
      rw [hop] at h
      simp only [Prod.mk.injEq] at h
      exact ⟨h.1.symm, h.2.1.symm⟩

/-! ## Reflexive diff: equal schemas diff to nothing -/

theorem diffTable_self_isEmpty (t : Table)
    (hc : (t.columns.map (fun c => c.name)).Nodup)
    (hfk : (t.foreignKeys.map (fun fk => fk.localCol)).Nodup) :
    (diffTable t t).isEmpty = true := by
  have hcol : ∀ c ∈ t.columns, findColumn t c.name = some c :=
    fun c hc' => findColumn_self hc hc'
  have hfk' : ∀ fk ∈ t.foreignKeys, fkByLocal t fk.localCol = some fk :=
    fun fk hf => fkByLocal_self hfk hf
  simp only [TableDiff.isEmpty, diffTable, Bool.and_eq_true, List.isEmpty_iff,
    Option.isNone_iff_eq_none, List.map_eq_nil_iff, List.filter_eq_nil_iff,
    List.filterMap_eq_nil_iff, and_assoc]
  refine ⟨?_, ?_, ?_, ?_, ?_, ?_, ?_, ?_, ?_, ?_, ?_, ?_, ?_⟩
  · intro c hcm; simp [hcol c hcm]
  · intro c hcm; simp [hcol c hcm]
  · intro c hcm; rw [hcol c hcm]; simp
  · intro c hcm; rw [hcol c hcm]; simp
  · intro c hcm; rw [hcol c hcm]; simp
  · simp
  · intro u hu; simp [hu]
  · intro u hu; simp [hu]
  · intro u hu; simp [hu]
  · intro u hu; simp [hu]
  · intro fk hf; simp [hfk' fk hf]
  · intro fk hf; simp [hfk' fk hf]
  · intro fk hf; rw [hfk' fk hf]; simp

theorem diffEnumAdds_refl_aux (liveEnums rest : List EnumType)
    (h : ∀ e ∈ rest, liveEnums.find? (fun le => le.name == e.name) = some e) :
    diffEnumAdds liveEnums rest = .ok [] := by
  induction rest with
  | nil => rfl
  | cons e tl ih =>
    simp only [diffEnumAdds]
    rw [h e (List.mem_cons_self e tl)]
    simp only [if_pos rfl]
    exact ih (fun x hx => h x (List.mem_cons_of_mem _ hx))

theorem computeDiff_refl (D : Schema) (hWF : D.WF) :
    computeDiff D D = .ok SchemaDiff.empty := by
  obtain ⟨hnt, hnen, hwt⟩ := hWF
  unfold computeDiff
  rw [diffEnumAdds_refl_aux D.enums D.enums (fun e he => findEnum_self hnen he)]
  have h1 : D.tables.filter (fun t => (findTable D t.name).isNone) = [] :=
    List.filter_eq_nil_iff.mpr (fun t ht => by simp [findTable_self hnt ht])
  have h2 : D.tables.filter
      (fun t => (findTable D t.name).isNone && t.name != "alembic_version") = [] :=
    List.filter_eq_nil_iff.mpr (fun t ht => by simp [findTable_self hnt ht])
  have h3 : D.tables.filterMap (fun t =>
      match findTable D t.name with
      | some lt =>
        let td := diffTable lt t
        if td.isEmpty then none else some td
      | none => none) = [] :=
    List.filterMap_eq_nil_iff.mpr (fun t ht => by
      rw [findTable_self hnt ht]
      simp [diffTable_self_isEmpty t (hwt t ht).1 (hwt t ht).2.1])
  have h4 : D.enums.filter (fun e => (findEnum D e.name).isNone) = [] :=
    List.filter_eq_nil_iff.mpr (fun e he => by simp [findEnum_self hnen he])
  simp [h1, h2, h3, h4, SchemaDiff.empty]

theorem shouldDropFK_refl (D : Schema) (hWF : D.WF) {t : Table} (ht : t ∈ D.tables)
    {fk : ForeignKey} (hfk : fk ∈ t.foreignKeys) :
    shouldDropFK D D t fk = false := by
  obtain ⟨hnt, hnen, hwt⟩ := hWF
  obtain ⟨hcnd, hfknd, hfkok⟩ := hwt t ht
  unfold shouldDropFK
  simp only [findTable_self hnt ht, fkByLocal_self hfknd hfk]
  have htg := (hfkok fk hfk).2
  unfold fkTargetOk at htg
  cases hft : findTable D fk.foreignTable with
  | none => rw [hft] at htg; simp at htg
  | some ft =>
    rw [hft] at htg
    simp only [Option.some_bind] at htg
    cases hcol : findColumn ft fk.foreignCol with
    | none => rw [hcol] at htg; simp at htg
    | some c => simp [hft, hcol]

theorem shouldAddFK_refl (D : Schema) (hWF : D.WF) {t : Table} (ht : t ∈ D.tables)
    {fk : ForeignKey} (hfk : fk ∈ t.foreignKeys) :
    shouldAddFK D D t fk = false := by
  unfold shouldAddFK
  simp only [findTable_self hWF.1 ht, fkByLocal_self ((hWF.2.2 t ht)).2.1 hfk]
  exact shouldDropFK_refl D hWF ht hfk

theorem dropFKOps_refl (D : Schema) (hWF : D.WF) : dropFKOps D D = [] := by
  unfold dropFKOps
  refine List.flatMap_eq_nil_iff.mpr (fun t ht => ?_)
  rw [List.filter_eq_nil_iff.mpr (fun fk hfk => by
    simp [shouldDropFK_refl D hWF ht hfk])]
  rfl

theorem addFKOps_refl (D : Schema) (hWF : D.WF) : addFKOps D D = [] := by
  unfold addFKOps
  refine List.flatMap_eq_nil_iff.mpr (fun t ht => ?_)
  rw [List.filter_eq_nil_iff.mpr (fun fk hfk => by
    simp [shouldAddFK_refl D hWF ht hfk])]
  rfl

theorem planDiff_empty_of_refl (D : Schema) (hWF : D.WF) :
    planDiff D D SchemaDiff.empty = [] := by
  unfold planDiff
  rw [dropFKOps_refl D hWF, addFKOps_refl D hWF]
  simp [createEnumOps, addEnumValueOps, dropIndexOps, dropUniqueOps, dropColumnOps,
    dropTableOps, createTableOps, alterTypeOps, alterNullableOps, alterDefaultOps,
    addColumnOps, addUniqueOps, addIndexOps, changePKOps, dropEnumOps, SchemaDiff.empty]

/-! ## Concrete example schemas (mirroring the repository's test scenarios) -/

def exUsers : Table :=
  { name := "users"
    columns := [
      { name := "id", type := .integer, nullable := false, default := none,
        identity := true },
      { name := "email", type := .varchar 255, nullable := false, default := none,
        identity := false }]
    primaryKey := ["id"]
    uniques := [["email"]]
    indexes := []
    foreignKeys := [] }

def exPosts : Table :=
  { name := "posts"
    columns := [
      { name := "id", type := .integer, nullable := false, default := none,
        identity := true },
      { name := "user_id", type := .integer, nullable := true, default := none,
        identity := false }]
    primaryKey := ["id"]
    uniques := []
    indexes := []
    foreignKeys := [{ localCol := "user_id", foreignTable := "users", foreignCol := "id" }] }

def exAuthors : Table :=
  { name := "authors"
    columns := [
      { name := "id", type := .integer, nullable := false, default := none,
        identity := true }]
    primaryKey := ["id"]
    uniques := []
    indexes := []
    foreignKeys := [] }

def exAlembic : Table :=
  { name := "alembic_version"
    columns := [
      { name := "version_num", type := .varchar 32, nullable := false, default := none,
        identity := false }]
    primaryKey := ["version_num"]
    uniques := []
    indexes := []
    foreignKeys := [] }

def exTasks : Table :=
  { name := "tasks"
    columns := [
      { name := "id", type := .integer, nullable := false, default := none,
        identity := true },
      { name := "status", type := .enumType "status", nullable := true, default := none,
        identity := false }]
    primaryKey := ["id"]
    uniques := []
    indexes := []
    foreignKeys := [] }

def exStatus : EnumType :=
  { name := "status", labels := ["active", "inactive", "pending"] }

def exStatus4 : EnumType :=
  { name := "status", labels := ["active", "inactive", "pending", "completed"] }

def exDb1 : Schema := { tables := [exUsers, exPosts], enums := [] }

def exDbEnum : Schema := { tables := [exTasks], enums := [exStatus] }

def exWantEnum : Schema := { tables := [exTasks], enums := [exStatus4] }

def exWantBadEnum : Schema :=
  { tables := [exTasks], enums := [{ name := "status", labels := ["active"] }] }

/-! ## Claim theorems -/

/-- C1: Idempotence.  For every desired schema `D`, running the engine
against a database whose live (reflected) schema already equals `D`
computes an empty diff, yields an empty plan, and executes no DDL,
leaving the database unchanged. -/
theorem c1_idempotence (db D : Schema) (hWF : D.WF) (hrefl : reflect db = D) :
    computeDiff (reflect db) D = .ok SchemaDiff.empty ∧
    planDiff (reflect db) D SchemaDiff.empty = [] ∧
    runEngine db D = .ok (db, []) := by
  refine ⟨?_, ?_, ?_⟩
  · rw [hrefl]; exact computeDiff_refl D hWF
  · rw [hrefl]; exact planDiff_empty_of_refl D hWF
  · unfold runEngine runEngineState
    rw [hrefl, computeDiff_refl D hWF]
    simp [planDiff_empty_of_refl D hWF, execGo]

/-- Witness for C1 at a concrete two-table schema. -/
theorem c1_idempotence_witness :
    computeDiff (reflect exDb1) exDb1 = .ok SchemaDiff.empty ∧
    planDiff (reflect exDb1) exDb1 SchemaDiff.empty = [] ∧
    runEngine exDb1 exDb1 = .ok (exDb1, []) :=
  c1_idempotence exDb1 exDb1 (by decide) rfl

/-- C6: Executor atomicity.  A run either fails — any error from diff
computation or DDL execution leaves the database in its original state
with no DDL committed (rollback, no partial apply) — or succeeds, in
which case the committed DDL is exactly the whole computed plan and the
final state is the result of applying every statement of it. -/
theorem c6_executor_atomicity (db desired db' : Schema) (ddl : List Op)
    (err : Option EngineError) (h : runEngineState db desired = (db', ddl, err)) :
    (∀ e, err = some e → db' = db ∧ ddl = []) ∧
    (err = none → ∃ d, computeDiff (reflect db) desired = .ok d ∧
      ddl = planDiff (reflect db) desired d ∧ applyPlan db ddl = some db') := by
  unfold runEngineState at h
  cases hd : computeDiff (reflect db) desired with
  | error e0 =>
    rw [hd] at h
    simp only [Prod.mk.injEq] at h
    obtain ⟨h1, h2, h3⟩ := h
    constructor
    · intro e _
      exact ⟨h1.symm, h2.symm⟩
    · intro hn
      rw [← h3] at hn
      cases hn
  | ok d =>
    rw [hd] at h
    cases err with
    | none =>
      rcases execGo_ok h with ⟨h1, h2⟩
      have h2' : ddl = planDiff (reflect db) desired d := by simpa using h2
      constructor
      · intro e he; cases he
      · intro _
        exact ⟨d, rfl, h2', by rw [h2']; exact h1⟩
    | some e =>
      rcases execGo_err h with ⟨h1, h2⟩
      exact ⟨fun e' _ => ⟨h1, h2⟩, fun hn => by cases hn⟩

/-! ## Claims about the Desired Schema Compiler -/

def exArticleIdDecl : DeclColumn :=
  { name := "id", type := .bigInteger, nullable := false, default := none,
    primaryKey := true, unique := false, index := false }

def exArticlesDecl : DeclTable :=
  { name := "articles"
    columns := [exArticleIdDecl,
      { name := "title", type := .varchar 200, nullable := false, default := none,
        primaryKey := false, unique := false, index := false }]
    compositeUniques := [], compositeIndexes := [], foreignKeys := [] }

def exEmailDecl : DeclColumn :=
  { name := "email", type := .varchar 255, nullable := true, default := none,
    primaryKey := false, unique := true, index := false }

def exUsersOrgDecl : DeclTable :=
  { name := "users"
    columns := [
      { name := "id", type := .integer, nullable := false, default := none,
        primaryKey := true, unique := false, index := false },
      { name := "organization_id", type := .integer, nullable := false, default := none,
        primaryKey := false, unique := false, index := false },
      exEmailDecl]
    compositeUniques := [], compositeIndexes := [], foreignKeys := [] }

/-- C10: identity synthesis.  A column declared only as a primary key
with logical type Integer or BigInteger and no explicit default is
compiled to an identity (serial) column. -/
theorem c10_identity_synthesis (dt : DeclTable) (c : DeclColumn) (hc : c ∈ dt.columns)
    (hpk : c.primaryKey = true)
    (hty : c.type = ColType.integer ∨ c.type = ColType.bigInteger)
    (hdef : c.default = none) :
    ∃ cc ∈ (compileTable dt).columns, cc.name = c.name ∧ cc.identity = true := by
  refine ⟨compileColumn c, List.mem_map_of_mem compileColumn hc, rfl, ?_⟩
  rcases hty with h | h <;> simp [compileColumn, hpk, hdef, h]

/-- Witness for C10 at the `articles` table with a BigInteger primary key. -/
theorem c10_identity_synthesis_witness :
    ∃ cc ∈ (compileTable exArticlesDecl).columns,
      cc.name = exArticleIdDecl.name ∧ cc.identity = true :=
  c10_identity_synthesis exArticlesDecl exArticleIdDecl (by decide) rfl (Or.inr rfl) rfl

/-- C3 counterexample: on the multi-tenant `users` table of
`test_creates_composite_unique_constraint_with_organization_id` the
compiler synthesizes the composite constraint `(email, organization_id)`
by default, not a constraint on exactly the column `email`. -/
theorem c3_counterexample :
    (compileTable exUsersOrgDecl).uniques = [["email", "organization_id"]] ∧
    ["email"] ∉ (compileTable exUsersOrgDecl).uniques := by
  exact ⟨rfl, by decide⟩

/-- C3 (amended): for every column declared `unique` that is not part of
an explicit composite unique constraint, the compiler synthesizes one
unique constraint for it; when the table has an `organization_id` column
(and the column is not `organization_id` itself) the synthesized
constraint is the composite `(column, organization_id)` — this widening
is the source's default behavior — and otherwise it covers exactly that
one column. -/
theorem c3_unique_synthesis (dt : DeclTable) (c : DeclColumn) (hc : c ∈ dt.columns)
    (hu : c.unique = true) (hnc : inComposite dt c.name = false) :
    (if hasOrganizationId dt && c.name != "organization_id" then
        [c.name, "organization_id"]
      else [c.name]) ∈ (compileTable dt).uniques := by
  simp only [compileTable, List.mem_append]
  left
  have hmem : c ∈ dt.columns.filter (fun c => c.unique && !(inComposite dt c.name)) :=
    List.mem_filter.mpr ⟨hc, by simp [hu, hnc]⟩
  have := List.mem_map_of_mem (synthUnique dt) hmem
  simpa [synthUnique] using this

/-- Witness for C3 (amended) at the multi-tenant `users` table. -/
theorem c3_unique_synthesis_witness :
    (if hasOrganizationId exUsersOrgDecl && exEmailDecl.name != "organization_id" then
        [exEmailDecl.name, "organization_id"]
      else [exEmailDecl.name]) ∈ (compileTable exUsersOrgDecl).uniques :=
  c3_unique_synthesis exUsersOrgDecl exEmailDecl (by decide) rfl rfl

/-! ## No silent enum loss -/

theorem labelsExtend_iff_append {l m : List String} :
    labelsExtend l m = true ↔ ∃ k, m = l ++ k := by
  induction l generalizing m with
  | nil => simp [labelsExtend]
  | cons a as ih =>
    cases m with
    | nil => simp [labelsExtend]
    | cons b bs =>
      simp only [labelsExtend, Bool.and_eq_true, beq_iff_eq]
      constructor
      · rintro ⟨rfl, h2⟩
        rcases ih.mp h2 with ⟨k, rfl⟩
        exact ⟨k, rfl⟩
      · rintro ⟨k, hk⟩
        injection hk with h1 h2
        exact ⟨h1.symm, ih.mpr ⟨k, h2⟩⟩

theorem labelsExtend_self (l : List String) : labelsExtend l l = true :=
  labelsExtend_iff_append.mpr ⟨[], by simp⟩

/-- Removing a live label (some live label absent from the desired list)
means the desired labels do not extend the live ones. -/
theorem labelsExtend_false_of_missing {live des : List String}
    (h : ∃ l ∈ live, l ∉ des) : labelsExtend live des = false := by
  rcases h with ⟨l, hl, hnd⟩
  cases he : labelsExtend live des with
  | false => rfl
  | true =>
    rcases labelsExtend_iff_append.mp he with ⟨k, rfl⟩
    exact absurd (List.mem_append_left k hl) hnd

/-- Reordering (same or smaller length but different sequence) means the
desired labels do not extend the live ones. -/
theorem labelsExtend_false_of_reorder {live des : List String}
    (h : live ≠ des) (hlen : des.length ≤ live.length) :
    labelsExtend live des = false := by
  cases he : labelsExtend live des with
  | false => rfl
  | true =>
    rcases labelsExtend_iff_append.mp he with ⟨k, rfl⟩
    have : k = [] := by
      have := List.length_append live k ▸ hlen
      simpa using List.length_eq_zero.mp (Nat.le_antisymm (by omega) (Nat.zero_le _))
    exact absurd (by simp [this]) h

theorem diffEnumAdds_err (liveEnums rest : List EnumType)
    (h : ∃ e ∈ rest, ∃ le, liveEnums.find? (fun x => x.name == e.name) = some le ∧
      labelsExtend le.labels e.labels = false) :
    ∃ n, diffEnumAdds liveEnums rest = .error (.unsupportedDiff n) := by
  induction rest with
  | nil =>
    rcases h with ⟨e, he, _⟩
    cases he
  | cons e tl ih =>
    rcases h with ⟨e', he', le', hfind, hbad⟩
    simp only [diffEnumAdds]
    cases hf : liveEnums.find? (fun x => x.name == e.name) with
    | none =>
      rcases List.mem_cons.mp he' with rfl | htl
      · rw [hf] at hfind; cases hfind
      · exact ih ⟨e', htl, le', hfind, hbad⟩
    | some le =>
      dsimp only
      by_cases heq : le.labels = e.labels
      · rw [if_pos heq]
        rcases List.mem_cons.mp he' with rfl | htl
        · rw [hf] at hfind
          injection hfind with h'
          subst h'
          rw [heq, labelsExtend_self] at hbad
          cases hbad
        · exact ih ⟨e', htl, le', hfind, hbad⟩
      · rw [if_neg heq]
        by_cases hext : labelsExtend le.labels e.labels = true
        · rw [if_pos hext]
          have htl : e' ∈ tl := by
            rcases List.mem_cons.mp he' with rfl | htl
            · rw [hf] at hfind
              injection hfind with h'
              subst h'
              rw [hext] at hbad
              cases hbad
            · exact htl
          rcases ih ⟨e', htl, le', hfind, hbad⟩ with ⟨n, hn⟩
          exact ⟨n, by rw [hn]; rfl⟩
        · rw [if_neg hext]
          exact ⟨e.name, rfl⟩

/-- C4: No silent enum loss.  If an enum present in both the live and the
desired schema has desired labels that do not extend the live labels by
appending — in particular when a live label is removed or the labels are
reordered (`labelsExtend_false_of_missing`,
`labelsExtend_false_of_reorder`) — the run fails with `UnsupportedDiff`,
the database is unchanged, and no DDL is committed. -/
theorem c4_no_silent_enum_loss (db desired : Schema) (en : String) (le de : EnumType)
    (hle : findEnum (reflect db) en = some le) (hde : findEnum desired en = some de)
    (hbad : labelsExtend le.labels de.labels = false) :
    ∃ n, runEngineState db desired = (db, [], some (.unsupportedDiff n)) := by
  have hmem : de ∈ desired.enums := List.mem_of_find?_eq_some hde
  have hname : de.name = en := by
    have := List.find?_some hde
    simpa using this
  have hfind : (reflect db).enums.find? (fun x => x.name == de.name) = some le := by
    rw [hname]; exact hle
  obtain ⟨n, herr⟩ :=
    diffEnumAdds_err (reflect db).enums desired.enums ⟨de, hmem, le, hfind, hbad⟩
  refine ⟨n, ?_⟩
  unfold runEngineState computeDiff
  rw [herr]

/-- Witness for C4: shrinking the labels of `status` makes the run fail
with `UnsupportedDiff` and leaves the database untouched. -/
theorem c4_no_silent_enum_loss_witness :
    ∃ n, runEngineState exDbEnum exWantBadEnum =
      (exDbEnum, [], some (.unsupportedDiff n)) :=
  c4_no_silent_enum_loss exDbEnum exWantBadEnum "status" exStatus
    { name := "status", labels := ["active"] } rfl rfl rfl

/-! ## Plan ordering -/

def planPhases (live desired : Schema) (d : SchemaDiff) : List (List Op) :=
  [createEnumOps d, addEnumValueOps d, dropFKOps live desired, dropIndexOps d,
   dropUniqueOps d, dropColumnOps d, dropTableOps d, createTableOps d,
   alterTypeOps d, alterNullableOps d, alterDefaultOps d, addColumnOps d,
   addUniqueOps d, addIndexOps d, changePKOps d, addFKOps live desired,
   dropEnumOps d]

theorem planDiff_eq_flatten (live desired : Schema) (d : SchemaDiff) :
    planDiff live desired d = (planPhases live desired d).flatten := by
  simp [planDiff, planPhases]

theorem rank_createEnumOps {d : SchemaDiff} {op : Op} (h : op ∈ createEnumOps d) :
    op.rank = 0 := by
  rcases List.mem_map.mp h with ⟨e, _, rfl⟩; rfl

theorem rank_addEnumValueOps {d : SchemaDiff} {op : Op} (h : op ∈ addEnumValueOps d) :
    op.rank = 1 := by
  rcases List.mem_map.mp h with ⟨p, _, rfl⟩; rfl

theorem rank_dropFKOps {live desired : Schema} {op : Op} (h : op ∈ dropFKOps live desired) :
    op.rank = 2 := by
  rcases List.mem_flatMap.mp h with ⟨t, _, hm⟩
  rcases List.mem_map.mp hm with ⟨fk, _, rfl⟩; rfl

theorem rank_dropIndexOps {d : SchemaDiff} {op : Op} (h : op ∈ dropIndexOps d) :
    op.rank = 3 := by
  rcases List.mem_flatMap.mp h with ⟨td, _, hm⟩
  rcases List.mem_map.mp hm with ⟨cols, _, rfl⟩; rfl

theorem rank_dropUniqueOps {d : SchemaDiff} {op : Op} (h : op ∈ dropUniqueOps d) :
    op.rank = 4 := by
  rcases List.mem_flatMap.mp h with ⟨td, _, hm⟩
  rcases List.mem_map.mp hm with ⟨cols, _, rfl⟩; rfl

theorem rank_dropColumnOps {d : SchemaDiff} {op : Op} (h : op ∈ dropColumnOps d) :
    op.rank = 5 := by
  rcases List.mem_flatMap.mp h with ⟨td, _, hm⟩
  rcases List.mem_map.mp hm with ⟨c, _, rfl⟩; rfl

theorem rank_dropTableOps {d : SchemaDiff} {op : Op} (h : op ∈ dropTableOps d) :
    op.rank = 6 := by
  rcases List.mem_map.mp h with ⟨n, _, rfl⟩; rfl

theorem rank_createTableOps {d : SchemaDiff} {op : Op} (h : op ∈ createTableOps d) :
    op.rank = 7 := by
  rcases List.mem_map.mp h with ⟨t, _, rfl⟩; rfl

theorem rank_alterTypeOps {d : SchemaDiff} {op : Op} (h : op ∈ alterTypeOps d) :
    op.rank = 8 := by
  rcases List.mem_flatMap.mp h with ⟨td, _, hm⟩
  rcases List.mem_map.mp hm with ⟨p, _, rfl⟩; rfl

theorem rank_alterNullableOps {d : SchemaDiff} {op : Op} (h : op ∈ alterNullableOps d) :
    op.rank = 9 := by
  rcases List.mem_flatMap.mp h with ⟨td, _, hm⟩
  rcases List.mem_map.mp hm with ⟨p, _, rfl⟩; rfl

theorem rank_alterDefaultOps {d : SchemaDiff} {op : Op} (h : op ∈ alterDefaultOps d) :
    op.rank = 10 := by
  rcases List.mem_flatMap.mp h with ⟨td, _, hm⟩
  rcases List.mem_map.mp hm with ⟨p, _, rfl⟩; rfl

theorem rank_addColumnOps {d : SchemaDiff} {op : Op} (h : op ∈ addColumnOps d) :
    op.rank = 11 := by
  rcases List.mem_flatMap.mp h with ⟨td, _, hm⟩
  rcases List.mem_map.mp hm with ⟨c, _, rfl⟩; rfl

theorem rank_addUniqueOps {d : SchemaDiff} {op : Op} (h : op ∈ addUniqueOps d) :
    op.rank = 12 := by
  rcases List.mem_flatMap.mp h with ⟨td, _, hm⟩
  rcases List.mem_map.mp hm with ⟨cols, _, rfl⟩; rfl

theorem rank_addIndexOps {d : SchemaDiff} {op : Op} (h : op ∈ addIndexOps d) :
    op.rank = 13 := by
  rcases List.mem_flatMap.mp h with ⟨td, _, hm⟩
  rcases List.mem_map.mp hm with ⟨cols, _, rfl⟩; rfl

theorem rank_changePKOps {d : SchemaDiff} {op : Op} (h : op ∈ changePKOps d) :
    op.rank = 14 := by
  rcases List.mem_flatMap.mp h with ⟨td, _, hm⟩
  cases hpk : td.changePK with
  | some cols =>
    rw [hpk, List.mem_singleton] at hm
    subst hm
    rfl
  | none =>
    rw [hpk] at hm
    cases hm

theorem rank_addFKOps {live desired : Schema} {op : Op} (h : op ∈ addFKOps live desired) :
    op.rank = 15 := by
  rcases List.mem_flatMap.mp h with ⟨t, _, hm⟩
  rcases List.mem_map.mp hm with ⟨fk, _, rfl⟩; rfl

theorem rank_dropEnumOps {d : SchemaDiff} {op : Op} (h : op ∈ dropEnumOps d) :
    op.rank = 16 := by
  rcases List.mem_map.mp h with ⟨n, _, rfl⟩; rfl

theorem pairwise_rank_const {l : List Op} {k : Nat} (h : ∀ a ∈ l, a.rank = k) :
    l.Pairwise (fun a b => a.rank ≤ b.rank) := by
  induction l with
  | nil => exact List.Pairwise.nil
  | cons a tl ih =>
    refine List.Pairwise.cons (fun b hb => ?_) (ih (fun b hb => h b (List.mem_cons_of_mem _ hb)))
    rw [h a (List.mem_cons_self a tl), h b (List.mem_cons_of_mem _ hb)]

theorem flatten_pairwise_rank (base : Nat) (phases : List (List Op))
    (h : ∀ i (hi : i < phases.length), ∀ a ∈ phases[i], a.rank = base + i) :
    phases.flatten.Pairwise (fun a b => a.rank ≤ b.rank) := by
  induction phases generalizing base with
  | nil => simp
  | cons p ps ih =>
    rw [List.flatten_cons]
    refine List.pairwise_append.mpr ⟨?_, ?_, ?_⟩
    · exact pairwise_rank_const (fun a ha => by simpa using h 0 (by simp) a (by simpa using ha))
    · refine ih (base + 1) (fun i hi a ha => ?_)
      have := h (i + 1) (by simpa using Nat.succ_lt_succ hi) a (by simpa using ha)
      omega
    · intro a ha b hb
      have h1 : a.rank = base := by simpa using h 0 (by simp) a (by simpa using ha)
      rcases List.mem_flatten.mp hb with ⟨l, hl, hbl⟩
      rcases List.mem_iff_getElem.mp hl with ⟨i, hi, rfl⟩
      have h2 : b.rank = base + (i + 1) :=
        h (i + 1) (by simpa using Nat.succ_lt_succ hi) b (by simpa using hbl)
      omega

theorem planDiff_rank_sorted (live desired : Schema) (d : SchemaDiff) :
    (planDiff live desired d).Pairwise (fun a b => a.rank ≤ b.rank) := by
  rw [planDiff_eq_flatten]
  refine flatten_pairwise_rank 0 _ ?_
  intro i hi a ha
  simp only [planPhases, List.length_cons, List.length_nil] at hi
  interval_cases i <;>
    simp only [planPhases, List.getElem_cons_zero, List.getElem_cons_succ] at ha
  · simpa using rank_createEnumOps ha
  · simpa using rank_addEnumValueOps ha
  · simpa using rank_dropFKOps ha
  · simpa using rank_dropIndexOps ha
  · simpa using rank_dropUniqueOps ha
  · simpa using rank_dropColumnOps ha
  · simpa using rank_dropTableOps ha
  · simpa using rank_createTableOps ha
  · simpa using rank_alterTypeOps ha
  · simpa using rank_alterNullableOps ha
  · simpa using rank_alterDefaultOps ha
  · simpa using rank_addColumnOps ha
  · simpa using rank_addUniqueOps ha
  · simpa using rank_addIndexOps ha
  · simpa using rank_changePKOps ha
  · simpa using rank_addFKOps ha
  · simpa using rank_dropEnumOps ha

theorem rank_lt_of_getElem {l : List Op}
    (hp : l.Pairwise (fun a b => a.rank ≤ b.rank)) {i j : Nat} {a b : Op}
    (ha : l[i]? = some a) (hb : l[j]? = some b) (hr : a.rank < b.rank) : i < j := by
  by_contra hij
  push_neg at hij
  rcases List.getElem?_eq_some.mp ha with ⟨hi, hia⟩
  rcases List.getElem?_eq_some.mp hb with ⟨hj, hjb⟩
  rcases Nat.lt_or_eq_of_le hij with hlt | heq
  · have := List.pairwise_iff_getElem.mp hp j i hj hi hlt
    rw [hia, hjb] at this
    omega
  · subst heq
    rw [hia] at hjb
    subst hjb
    omega

/-- Whether an operation's payload references the enum type named `n`. -/
def usesEnumName (n : String) : Op → Prop
  | .addColumn _ c => c.type = ColType.enumType n
  | .alterColumnType _ _ ty => ty = ColType.enumType n
  | _ => False

/-- C5: Plan ordering.  In every emitted plan: every `CreateEnum`
precedes every `AddColumn`/`AlterColumnType` (in particular those
referencing that enum); every `DropForeignKey` precedes every
`DropColumn` and `AlterColumnType` (in particular those on the foreign
key's column); and every `DropForeignKey` precedes every `DropTable` (so
a table is dropped only after the foreign keys pointing into it are
dropped). -/
theorem c5_plan_ordering (live desired : Schema) (d : SchemaDiff) :
    (∀ (i j : Nat) (n : String) (ls : List String) (op : Op),
      (planDiff live desired d)[i]? = some (Op.createEnum n ls) →
      (planDiff live desired d)[j]? = some op → usesEnumName n op → i < j) ∧
    (∀ (i j : Nat) (tn c : String) (op : Op),
      (planDiff live desired d)[i]? = some (Op.dropForeignKey tn c) →
      (planDiff live desired d)[j]? = some op →
      (op = Op.dropColumn tn c ∨ ∃ ty, op = Op.alterColumnType tn c ty) → i < j) ∧
    (∀ (i j : Nat) (tn c m : String),
      (planDiff live desired d)[i]? = some (Op.dropForeignKey tn c) →
      (planDiff live desired d)[j]? = some (Op.dropTable m) → i < j) := by
  have hp := planDiff_rank_sorted live desired d
  refine ⟨?_, ?_, ?_⟩
  · intro i j n ls op ha hb hu
    refine rank_lt_of_getElem hp ha hb ?_
    cases op <;> simp only [usesEnumName] at hu <;> simp [Op.rank]
  · intro i j tn c op ha hb hop
    refine rank_lt_of_getElem hp ha hb ?_
    rcases hop with rfl | ⟨ty, rfl⟩ <;> simp [Op.rank]
  · intro i j tn c m ha hb
    exact rank_lt_of_getElem hp ha hb (by simp [Op.rank])

def exPostsToAuthors : Table :=
  { exPosts with foreignKeys :=
      [{ localCol := "user_id", foreignTable := "authors", foreignCol := "id" }] }

def exDbFk : Schema := { tables := [exUsers, exAuthors, exPosts], enums := [] }

def exWantFk : Schema := { tables := [exUsers, exAuthors, exPostsToAuthors], enums := [] }

def exStatusCol : Column :=
  { name := "status", type := .enumType "status", nullable := true, default := none,
    identity := false }

def exDiff5 : SchemaDiff :=
  { createTables := []
    dropTables := ["old"]
    tableDiffs := [{
      table := "posts", addColumns := [exStatusCol], dropColumns := ["user_id"],
      alterTypes := [("user_id", .integer)], alterNullables := [], alterDefaults := [],
      changePK := none, addUniques := [], dropUniques := [], addIndexes := [],
      dropIndexes := [], addFKs := [], dropFKs := [], alterFKs := [] }]
    createEnums := [exStatus]
    addEnumValues := []
    dropEnums := [] }

/-- Witness for C5 on a concrete plan: `CreateEnum status` (position 0)
precedes the `AddColumn` using it (position 5); `DropForeignKey
posts.user_id` (position 1) precedes both `DropColumn posts.user_id`
(position 2) and `DropTable old` (position 3). -/
theorem c5_plan_ordering_witness : (0 : Nat) < 5 ∧ (1 : Nat) < 2 ∧ (1 : Nat) < 3 :=
  ⟨(c5_plan_ordering exDbFk exWantFk exDiff5).1 0 5 "status" exStatus.labels
      (Op.addColumn "posts" exStatusCol) rfl rfl rfl,
   (c5_plan_ordering exDbFk exWantFk exDiff5).2.1 1 2 "posts" "user_id"
      (Op.dropColumn "posts" "user_id") rfl rfl (Or.inl rfl),
   (c5_plan_ordering exDbFk exWantFk exDiff5).2.2 1 3 "posts" "user_id" "old" rfl rfl⟩

/-! ## Effect of single operations on the set of table names -/

theorem setColumn_name {t t' : Table} {cn : String} {g : Column → Column}
    (h : setColumn t cn g = some t') : t'.name = t.name := by
  unfold setColumn at h
  split at h
  · cases h; rfl
  · cases h

theorem updateTable_names {db db' : Schema} {n : String} {f : Table → Option Table}
    (hf : NamePreserving f) (h : updateTable db n f = some db') :
    tableNames db' = tableNames db := by
  rcases updateTable_parts h with ⟨ts', hts, rfl⟩
  simpa [tableNames] using updateTables_names hf hts

theorem applyOp_createTable {db db' : Schema} {t : Table}
    (h : applyOp db (.createTable t) = some db') :
    findTable db t.name = none ∧ db'.tables = db.tables ++ [t] := by
  simp only [applyOp] at h
  split at h
  case isTrue h1 => cases h
  case isFalse h1 =>
    split at h
    · cases h
      exact ⟨Option.not_isSome_iff_eq_none.mp h1, rfl⟩
    · cases h

theorem applyOp_dropTable {db db' : Schema} {n : String}
    (h : applyOp db (.dropTable n) = some db') :
    (findTable db n).isSome = true ∧
      db'.tables = db.tables.filter (fun t => t.name != n) := by
  simp only [applyOp] at h
  split at h
  case isTrue h1 =>
    cases h
    exact ⟨(Bool.and_eq_true _ _).mp h1 |>.1, rfl⟩
  case isFalse h1 => cases h

theorem applyOp_tables_names {db db' : Schema} {op : Op} (h : applyOp db op = some db')
    (h6 : op.rank ≠ 6) (h7 : op.rank ≠ 7) :
    tableNames db' = tableNames db := by
  cases op with
  | createEnum n ls =>
    simp only [applyOp] at h
    split at h
    · cases h
    · cases h; rfl
  | addEnumValues n ls =>
    simp only [applyOp] at h
    rcases Option.map_eq_some'.mp h with ⟨es, _, rfl⟩
    rfl
  | dropEnum n =>
    simp only [applyOp] at h
    split at h
    · cases h; rfl
    · cases h
  | createTable t => exact absurd rfl h7
  | dropTable n => exact absurd rfl h6
  | addColumn tn c =>
    simp only [applyOp] at h
    split at h
    · refine updateTable_names ?_ h
      intro t t' ht
      dsimp only at ht
      split at ht
      · cases ht
      · cases ht; rfl
    · cases h
  | dropColumn tn cn =>
    simp only [applyOp] at h
    split at h
    · cases h
    · refine updateTable_names ?_ h
      intro t t' ht
      dsimp only at ht
      split at ht
      · cases ht; rfl
      · cases ht
  | alterColumnType tn cn ty =>
    simp only [applyOp] at h
    split at h
    · exact updateTable_names (fun t t' ht => setColumn_name ht) h
    · cases h
  | alterColumnNullable tn cn b =>
    simp only [applyOp] at h
    exact updateTable_names (fun t t' ht => setColumn_name ht) h
  | alterColumnDefault tn cn dflt =>
    simp only [applyOp] at h
    exact updateTable_names (fun t t' ht => setColumn_name ht) h
  | addUnique tn cols =>
    simp only [applyOp] at h
    refine updateTable_names ?_ h
    intro t t' ht
    dsimp only at ht
    split at ht
    · cases ht
    · cases ht; rfl
  | dropUnique tn cols =>
    simp only [applyOp] at h
    refine updateTable_names ?_ h
    intro t t' ht
    dsimp only at ht
    split at ht
    · cases ht; rfl
    · cases ht
  | addIndex tn cols =>
    simp only [applyOp] at h
    refine updateTable_names ?_ h
    intro t t' ht
    dsimp only at ht
    split at ht
    · cases ht
    · cases ht; rfl
  | dropIndex tn cols =>
    simp only [applyOp] at h
    refine updateTable_names ?_ h
    intro t t' ht
    dsimp only at ht
    split at ht
    · cases ht; rfl
    · cases ht
  | addForeignKey tn fk =>
    simp only [applyOp] at h
    cases hft : findTable db fk.foreignTable with
    | none => rw [hft] at h; cases h
    | some ft =>
      rw [hft] at h
      dsimp only at h
      by_cases hcol : (findColumn ft fk.foreignCol).isSome = true
      · rw [if_pos hcol] at h
        refine updateTable_names ?_ h
        intro t t' ht
        dsimp only at ht
        split at ht
        · cases ht
        · cases ht; rfl
      · rw [if_neg hcol] at h
        cases h
  | dropForeignKey tn cn =>
    simp only [applyOp] at h
    refine updateTable_names ?_ h
    intro t t' ht
    dsimp only at ht
    split at ht
    · cases ht; rfl
    · cases ht
  | changePrimaryKey tn cols =>
    simp only [applyOp] at h
    refine updateTable_names ?_ h
    intro t t' ht
    dsimp only at ht
    split at ht
    · cases ht; rfl
    · cases ht

/-! ## Effect of plan segments on the set of table names -/

theorem applyPlan_names_preserved {db db' : Schema} {ops : List Op}
    (h : applyPlan db ops = some db')
    (hops : ∀ op ∈ ops, op.rank ≠ 6 ∧ op.rank ≠ 7) :
    tableNames db' = tableNames db := by
  induction ops generalizing db with
  | nil =>
    simp only [applyPlan, Option.some.injEq] at h
    rw [← h]
  | cons op ops ih =>
    simp only [applyPlan] at h
    cases hop : applyOp db op with
    | some db1 =>
      rw [hop] at h
      rw [ih h (fun o ho => hops o (List.mem_cons_of_mem _ ho))]
      exact applyOp_tables_names hop (hops op (List.mem_cons_self _ _)).1
        (hops op (List.mem_cons_self _ _)).2
    | none => rw [hop] at h; cases h

theorem names_filter_ne (ts : List Table) (n m : String) :
    (m ∈ (ts.filter (fun t => t.name != n)).map (fun t => t.name)) ↔
      (m ∈ ts.map (fun t => t.name) ∧ m ≠ n) := by
  simp only [List.mem_map, List.mem_filter, bne_iff_ne, ne_eq]
  constructor
  · rintro ⟨t, ⟨ht, hne⟩, rfl⟩
    exact ⟨⟨t, ht, rfl⟩, hne⟩
  · rintro ⟨⟨t, ht, rfl⟩, hne⟩
    exact ⟨t, ⟨ht, hne⟩, rfl⟩

theorem applyPlan_dropTables {db db' : Schema} {ns : List String}
    (h : applyPlan db (ns.map Op.dropTable) = some db') :
    ∀ m, m ∈ tableNames db' ↔ (m ∈ tableNames db ∧ m ∉ ns) := by
  induction ns generalizing db with
  | nil =>
    simp only [List.map_nil, applyPlan, Option.some.injEq] at h
    subst h
    simp
  | cons n ns ih =>
    simp only [List.map_cons, applyPlan] at h
    cases hop : applyOp db (.dropTable n) with
    | none => rw [hop] at h; cases h
    | some db1 =>
      rw [hop] at h
      intro m
      rcases applyOp_dropTable hop with ⟨_, htab⟩
      have hnames : ∀ m', m' ∈ tableNames db1 ↔ (m' ∈ tableNames db ∧ m' ≠ n) := by
        intro m'
        show m' ∈ tableNames db1 ↔ _
        rw [tableNames, htab]
        exact names_filter_ne db.tables n m'
      rw [ih h m, hnames m]
      simp only [List.mem_cons]
      constructor
      · rintro ⟨⟨hm, hne⟩, hns⟩
        exact ⟨hm, fun hc => hc.elim hne hns⟩
      · rintro ⟨hm, hni⟩
        exact ⟨⟨hm, fun hc => hni (Or.inl hc)⟩, fun hc => hni (Or.inr hc)⟩

theorem applyPlan_createTables {db db' : Schema} {ts : List Table}
    (h : applyPlan db (ts.map Op.createTable) = some db') :
    ∀ m, m ∈ tableNames db' ↔
      (m ∈ tableNames db ∨ m ∈ ts.map (fun t => t.name)) := by
  induction ts generalizing db with
  | nil =>
    simp only [List.map_nil, applyPlan, Option.some.injEq] at h
    subst h
    simp
  | cons t ts ih =>
    simp only [List.map_cons, applyPlan] at h
    cases hop : applyOp db (.createTable t) with
    | none => rw [hop] at h; cases h
    | some db1 =>
      rw [hop] at h
      intro m
      rcases applyOp_createTable hop with ⟨_, htab⟩
      have hnames : ∀ m', m' ∈ tableNames db1 ↔ (m' ∈ tableNames db ∨ m' = t.name) := by
        intro m'
        show m' ∈ tableNames db1 ↔ _
        rw [tableNames, htab]
        simp [tableNames]
      rw [ih h m, hnames m]
      simp only [List.map_cons, List.mem_cons]
      tauto

/-! ## Dissecting a successful run and a computed diff -/

theorem runEngine_ok_parts {db desired db' : Schema} {plan : List Op}
    (h : runEngine db desired = .ok (db', plan)) :
    ∃ d, computeDiff (reflect db) desired = .ok d ∧
      plan = planDiff (reflect db) desired d ∧ applyPlan db plan = some db' := by
  unfold runEngine runEngineState at h
  cases hd : computeDiff (reflect db) desired with
  | error e => rw [hd] at h; cases h
  | ok d =>
    rw [hd] at h
    dsimp only at h
    cases hex : execGo db db [] (planDiff (reflect db) desired d) with
    | mk db1 p2 =>
      cases p2 with
      | mk ddl err =>
        rw [hex] at h
        cases err with
        | none =>
          simp only [Except.ok.injEq, Prod.mk.injEq] at h
          obtain ⟨rfl, rfl⟩ := h
          rcases execGo_ok hex with ⟨h1, h2⟩
          have h2' : ddl = planDiff (reflect db) desired d := by simpa using h2
          exact ⟨d, rfl, h2', by rw [h2']; exact h1⟩
        | some e => cases h

theorem computeDiff_ok_parts {live desired : Schema} {d : SchemaDiff}
    (hd : computeDiff live desired = .ok d) :
    d.createTables = desired.tables.filter (fun t => (findTable live t.name).isNone) ∧
    d.dropTables = (live.tables.filter (fun t =>
      (findTable desired t.name).isNone && t.name != "alembic_version")).map
        (fun t => t.name) ∧
    d.createEnums = desired.enums.filter (fun e => (findEnum live e.name).isNone) ∧
    d.dropEnums = (live.enums.filter (fun e => (findEnum desired e.name).isNone)).map
      (fun e => e.name) ∧
    diffEnumAdds live.enums desired.enums = .ok d.addEnumValues ∧
    d.tableDiffs = desired.tables.filterMap (fun t =>
      match findTable live t.name with
      | some lt =>
        let td := diffTable lt t
        if td.isEmpty then none else some td
      | none => none) := by
  unfold computeDiff at hd
  cases hA : diffEnumAdds live.enums desired.enums with
  | error e => rw [hA] at hd; cases hd
  | ok adds =>
    rw [hA] at hd
    dsimp only at hd
    injection hd with hd
    subst hd
    exact ⟨rfl, rfl, rfl, rfl, rfl, rfl⟩

theorem mem_dropTables {live desired : Schema} {d : SchemaDiff}
    (hd : computeDiff live desired = .ok d) {m : String} :
    m ∈ d.dropTables ↔
      (m ∈ tableNames live ∧ m ∉ tableNames desired ∧ m ≠ "alembic_version") := by
  rw [(computeDiff_ok_parts hd).2.1]
  constructor
  · intro h
    rcases List.mem_map.mp h with ⟨t, ht, rfl⟩
    rcases List.mem_filter.mp ht with ⟨htm, hcond⟩
    rw [Bool.and_eq_true] at hcond
    refine ⟨List.mem_map_of_mem _ htm, ?_, ?_⟩
    · rw [← findTable_eq_none_iff]
      exact Option.isNone_iff_eq_none.mp hcond.1
    · simpa [bne_iff_ne] using hcond.2
  · rintro ⟨hm, hnd, hna⟩
    rcases List.mem_map.mp hm with ⟨t, ht, rfl⟩
    refine List.mem_map_of_mem _ (List.mem_filter.mpr ⟨ht, ?_⟩)
    rw [Bool.and_eq_true]
    exact ⟨Option.isNone_iff_eq_none.mpr (findTable_eq_none_iff.mpr hnd),
      by simpa [bne_iff_ne] using hna⟩

theorem mem_createTables_names {live desired : Schema} {d : SchemaDiff}
    (hd : computeDiff live desired = .ok d) {m : String} :
    m ∈ d.createTables.map (fun t => t.name) ↔
      (m ∈ tableNames desired ∧ m ∉ tableNames live) := by
  rw [(computeDiff_ok_parts hd).1]
  constructor
  · intro h
    rcases List.mem_map.mp h with ⟨t, ht, rfl⟩
    rcases List.mem_filter.mp ht with ⟨htm, hcond⟩
    refine ⟨List.mem_map_of_mem _ htm, ?_⟩
    rw [← findTable_eq_none_iff]
    exact Option.isNone_iff_eq_none.mp hcond
  · rintro ⟨hm, hnl⟩
    rcases List.mem_map.mp hm with ⟨t, ht, rfl⟩
    exact List.mem_map_of_mem _ (List.mem_filter.mpr
      ⟨ht, Option.isNone_iff_eq_none.mpr (findTable_eq_none_iff.mpr hnl)⟩)

/-! ## Decomposing a plan around its table drop and create phases -/

def preDropOps (live desired : Schema) (d : SchemaDiff) : List Op :=
  createEnumOps d ++ (addEnumValueOps d ++ (dropFKOps live desired ++
    (dropIndexOps d ++ (dropUniqueOps d ++ dropColumnOps d))))

def postCreateOps (live desired : Schema) (d : SchemaDiff) : List Op :=
  alterTypeOps d ++ (alterNullableOps d ++ (alterDefaultOps d ++ (addColumnOps d ++
    (addUniqueOps d ++ (addIndexOps d ++ (changePKOps d ++
      (addFKOps live desired ++ dropEnumOps d)))))))

theorem planDiff_decomp (live desired : Schema) (d : SchemaDiff) :
    planDiff live desired d =
      preDropOps live desired d ++ (dropTableOps d ++ (createTableOps d ++
        postCreateOps live desired d)) := by
  simp [planDiff, preDropOps, postCreateOps, List.append_assoc]

theorem rank_preDropOps {live desired : Schema} {d : SchemaDiff} {op : Op}
    (h : op ∈ preDropOps live desired d) : op.rank ≤ 5 := by
  simp only [preDropOps, List.mem_append] at h
  rcases h with h | h | h | h | h | h
  · rw [rank_createEnumOps h]; omega
  · rw [rank_addEnumValueOps h]; omega
  · rw [rank_dropFKOps h]; omega
  · rw [rank_dropIndexOps h]; omega
  · rw [rank_dropUniqueOps h]; omega
  · rw [rank_dropColumnOps h]

theorem rank_postCreateOps {live desired : Schema} {d : SchemaDiff} {op : Op}
    (h : op ∈ postCreateOps live desired d) : 8 ≤ op.rank := by
  simp only [postCreateOps, List.mem_append] at h
  rcases h with h | h | h | h | h | h | h | h | h
  · rw [rank_alterTypeOps h]
  · rw [rank_alterNullableOps h]; omega
  · rw [rank_alterDefaultOps h]; omega
  · rw [rank_addColumnOps h]; omega
  · rw [rank_addUniqueOps h]; omega
  · rw [rank_addIndexOps h]; omega
  · rw [rank_changePKOps h]; omega
  · rw [rank_addFKOps h]; omega
  · rw [rank_dropEnumOps h]; omega

/-- A table-drop operation in a plan can only come from the diff's
`dropTables`. -/
theorem dropTable_mem_plan {live desired : Schema} {d : SchemaDiff} {m : String}
    (h : Op.dropTable m ∈ planDiff live desired d) : m ∈ d.dropTables := by
  rw [planDiff_decomp] at h
  simp only [List.mem_append] at h
  rcases h with h | h | h | h
  · have := rank_preDropOps h; simp [Op.rank] at this
  · rcases List.mem_map.mp h with ⟨n, hn, heq⟩
    injection heq with heq
    exact heq ▸ hn
  · have := rank_createTableOps h; simp [Op.rank] at this
  · have := rank_postCreateOps h; simp [Op.rank] at this

def exDb6 : Schema := { tables := [exUsers, exPosts, exAlembic], enums := [] }

def exWant6 : Schema := { tables := [exUsers], enums := [] }

def exDb6' : Schema := { tables := [exUsers, exAlembic], enums := [] }

def exPlan6 : List Op :=
  [Op.dropForeignKey "posts" "user_id", Op.dropTable "posts"]

/-- C2: Preservation of the bookkeeping table.  After a successful run
the set of user-owned table names equals the desired schema's table
names plus `alembic_version` if that name was present before; the table
`alembic_version` is never the subject of a `DropTable` in the plan,
while any other live table name absent from the desired schema is gone. -/
theorem c2_preservation (db desired db' : Schema) (plan : List Op)
    (hA : "alembic_version" ∉ tableNames desired)
    (hrun : runEngine db desired = .ok (db', plan)) :
    (∀ n, n ∈ tableNames db' ↔
      (n ∈ tableNames desired ∨ (n = "alembic_version" ∧ n ∈ tableNames db))) ∧
    Op.dropTable "alembic_version" ∉ plan := by
  obtain ⟨d, hd, hplan, happ⟩ := runEngine_ok_parts hrun
  constructor
  · subst hplan
    rw [planDiff_decomp, applyPlan_append] at happ
    rcases Option.bind_eq_some.mp happ with ⟨db1, hs1, happ⟩
    rw [applyPlan_append] at happ
    rcases Option.bind_eq_some.mp happ with ⟨db2, hs2, happ⟩
    rw [applyPlan_append] at happ
    rcases Option.bind_eq_some.mp happ with ⟨db3, hs3, hs4⟩
    have hn1 : tableNames db1 = tableNames db :=
      applyPlan_names_preserved hs1 (fun op hop =>
        ⟨by have := rank_preDropOps hop; omega,
         by have := rank_preDropOps hop; omega⟩)
    have hn2 := applyPlan_dropTables hs2
    have hs3' : applyPlan db2
        ((d.createTables.map (fun t => { t with foreignKeys := [] })).map
          Op.createTable) = some db3 := by
      simpa [createTableOps, List.map_map, Function.comp] using hs3
    have hn3 := applyPlan_createTables hs3'
    have hn4 : tableNames db' = tableNames db3 :=
      applyPlan_names_preserved hs4 (fun op hop =>
        ⟨by have := rank_postCreateOps hop; omega,
         by have := rank_postCreateOps hop; omega⟩)
    have hcn : ∀ m, (m ∈ (d.createTables.map
        (fun t => { t with foreignKeys := ([] : List ForeignKey) })).map
          (fun t => t.name)) ↔
        (m ∈ tableNames desired ∧ m ∉ tableNames (reflect db)) := by
      intro m
      rw [List.map_map]
      exact mem_createTables_names hd
    intro n
    rw [hn4, hn3 n, hn2 n, hn1, hcn n]
    simp only [mem_dropTables hd, tableNames_reflect]
    have hAl : n = "alembic_version" → n ∉ tableNames desired := fun he => he ▸ hA
    by_cases hal : n = "alembic_version" <;> tauto
  · intro hmem
    rw [hplan] at hmem
    have := dropTable_mem_plan hmem
    rw [mem_dropTables hd] at this
    exact this.2.2 rfl

/-- Witness for C2 on the spec's scenario 6: live tables
`{users, posts, alembic_version}`, desired `{users}`; after the run the
tables are `{users, alembic_version}` and `posts` was dropped. -/
theorem c2_preservation_witness :
    (∀ n, n ∈ tableNames exDb6' ↔
      (n ∈ tableNames exWant6 ∨ (n = "alembic_version" ∧ n ∈ tableNames exDb6))) ∧
    Op.dropTable "alembic_version" ∉ exPlan6 :=
  c2_preservation exDb6 exWant6 exDb6' exPlan6 (by decide) rfl

/-! ## Tracking one enum through a plan -/

/-- Whether an operation modifies the enum named `en`. -/
def touchesEnum (en : String) : Op → Bool
  | .createEnum n _ => n == en
  | .addEnumValues n _ => n == en
  | .dropEnum n => n == en
  | _ => false

theorem touchesEnum_false_of_rank {en : String} {op : Op} (h0 : op.rank ≠ 0)
    (h1 : op.rank ≠ 1) (h16 : op.rank ≠ 16) : touchesEnum en op = false := by
  cases op with
  | createEnum n ls => exact absurd rfl h0
  | addEnumValues n ls => exact absurd rfl h1
  | dropEnum n => exact absurd rfl h16
  | _ => rfl

/-- Every operation other than the three enum operations leaves the enum
list of the database untouched. -/
theorem applyOp_enums_eq {db db' : Schema} {op : Op} (h : applyOp db op = some db')
    (h0 : op.rank ≠ 0) (h1 : op.rank ≠ 1) (h16 : op.rank ≠ 16) :
    db'.enums = db.enums := by
  cases op with
  | createEnum n ls => exact absurd rfl h0
  | addEnumValues n ls => exact absurd rfl h1
  | dropEnum n => exact absurd rfl h16
  | createTable t =>
    simp only [applyOp] at h
    split at h
    · cases h
    · split at h
      · cases h; rfl
      · cases h
  | dropTable n =>
    simp only [applyOp] at h
    split at h
    · cases h; rfl
    · cases h
  | addColumn tn c =>
    simp only [applyOp] at h
    split at h
    · exact updateTable_enums h
    · cases h
  | dropColumn tn cn =>
    simp only [applyOp] at h
    split at h
    · cases h
    · exact updateTable_enums h
  | alterColumnType tn cn ty =>
    simp only [applyOp] at h
    split at h
    · exact updateTable_enums h
    · cases h
  | alterColumnNullable tn cn b =>
    simp only [applyOp] at h
    exact updateTable_enums h
  | alterColumnDefault tn cn dflt =>
    simp only [applyOp] at h
    exact updateTable_enums h
  | addUnique tn cols =>
    simp only [applyOp] at h
    exact updateTable_enums h
  | dropUnique tn cols =>
    simp only [applyOp] at h
    exact updateTable_enums h
  | addIndex tn cols =>
    simp only [applyOp] at h
    exact updateTable_enums h
  | dropIndex tn cols =>
    simp only [applyOp] at h
    exact updateTable_enums h
  | addForeignKey tn fk =>
    simp only [applyOp] at h
    cases hft : findTable db fk.foreignTable with
    | none => rw [hft] at h; cases h
    | some ft =>
      rw [hft] at h
      dsimp only at h
      split at h
      · exact updateTable_enums h
      · cases h
  | dropForeignKey tn cn =>
    simp only [applyOp] at h
    exact updateTable_enums h
  | changePrimaryKey tn cols =>
    simp only [applyOp] at h
    exact updateTable_enums h

theorem find?_name_append_other {α : Type} (f : α → String) (l : List α) (x : α)
    {m : String} (hne : f x ≠ m) :
    (l ++ [x]).find? (fun e => f e == m) = l.find? (fun e => f e == m) := by
  induction l with
  | nil =>
    rw [List.nil_append, List.find?_cons_of_neg _ (by simp [hne])]
  | cons a tl ih =>
    by_cases ha : f a = m
    · rw [List.cons_append, List.find?_cons_of_pos _ (by simp [ha]),
        List.find?_cons_of_pos _ (by simp [ha])]
    · rw [List.cons_append, List.find?_cons_of_neg _ (by simp [ha]),
        List.find?_cons_of_neg _ (by simp [ha])]
      exact ih

theorem find?_name_filter_other {α : Type} (f : α → String) (l : List α)
    {n m : String} (hne : m ≠ n) :
    (l.filter (fun e => f e != n)).find? (fun e => f e == m) =
      l.find? (fun e => f e == m) := by
  induction l with
  | nil => rfl
  | cons a tl ih =>
    by_cases han : f a = n
    · rw [List.filter_cons_of_neg (by simp [han]),
        List.find?_cons_of_neg _ (by simp [han]; exact fun hc => hne hc.symm)]
      exact ih
    · rw [List.filter_cons_of_pos (by simp [han])]
      by_cases ham : f a = m
      · rw [List.find?_cons_of_pos _ (by simp [ham]),
          List.find?_cons_of_pos _ (by simp [ham])]
      · rw [List.find?_cons_of_neg _ (by simp [ham]),
          List.find?_cons_of_neg _ (by simp [ham])]
        exact ih

theorem applyOp_findEnum_preserved {db db' : Schema} {op : Op} {en : String}
    (h : applyOp db op = some db') (ht : touchesEnum en op = false) :
    findEnum db' en = findEnum db en := by
  cases op with
  | createEnum n ls =>
    have hne : n ≠ en := by simpa [touchesEnum] using ht
    simp only [applyOp] at h
    split at h
    · cases h
    · cases h
      exact find?_name_append_other (fun e : EnumType => e.name) db.enums _ hne
  | addEnumValues n ls =>
    have hne : en ≠ n := fun hc => by simp [touchesEnum, hc] at ht
    simp only [applyOp] at h
    rcases Option.map_eq_some'.mp h with ⟨es, hes, rfl⟩
    exact updateEnums_find?_other hes hne
  | dropEnum n =>
    have hne : en ≠ n := fun hc => by simp [touchesEnum, hc] at ht
    simp only [applyOp] at h
    split at h
    · cases h
      exact find?_name_filter_other (fun e : EnumType => e.name) db.enums hne
    · cases h
  | _ =>
    show findEnum db' en = findEnum db en
    unfold findEnum
    rw [applyOp_enums_eq h (by simp [Op.rank]) (by simp [Op.rank]) (by simp [Op.rank])]

theorem applyPlan_findEnum_preserved {db db' : Schema} {ops : List Op} {en : String}
    (h : applyPlan db ops = some db')
    (hops : ∀ op ∈ ops, touchesEnum en op = false) :
    findEnum db' en = findEnum db en := by
  induction ops generalizing db with
  | nil =>
    simp only [applyPlan, Option.some.injEq] at h
    rw [← h]
  | cons op ops ih =>
    simp only [applyPlan] at h
    cases hop : applyOp db op with
    | some db1 =>
      rw [hop] at h
      rw [ih h (fun o ho => hops o (List.mem_cons_of_mem _ ho))]
      exact applyOp_findEnum_preserved hop (hops op (List.mem_cons_self _ _))
    | none => rw [hop] at h; cases h

theorem applyOp_addEnumValues {db db' : Schema} {n : String} {ls : List String}
    (h : applyOp db (.addEnumValues n ls) = some db') :
    ∃ e, findEnum db n = some e ∧
      findEnum db' n = some { e with labels := e.labels ++ ls } := by
  simp only [applyOp] at h
  rcases Option.map_eq_some'.mp h with ⟨es, hes, rfl⟩
  rcases updateEnums_find?_self hes with ⟨e, h1, h2⟩
  exact ⟨e, h1, h2⟩

/-! ## Structure of the enum additions computed by the differ -/

theorem diffEnumAdds_mem {liveEnums rest : List EnumType}
    {adds : List (String × List String)}
    (h : diffEnumAdds liveEnums rest = .ok adds) {e le : EnumType} (he : e ∈ rest)
    (hf : liveEnums.find? (fun x => x.name == e.name) = some le)
    (hne : le.labels ≠ e.labels) (hext : labelsExtend le.labels e.labels = true) :
    (e.name, e.labels.drop le.labels.length) ∈ adds := by
  induction rest generalizing adds with
  | nil => cases he
  | cons e0 tl ih =>
    simp only [diffEnumAdds] at h
    rcases List.mem_cons.mp he with rfl | htl
    · rw [hf] at h
      dsimp only at h
      rw [if_neg hne, if_pos hext] at h
      cases hrec : diffEnumAdds liveEnums tl with
      | error er => rw [hrec] at h; simp [Except.map] at h
      | ok l =>
        rw [hrec] at h
        simp only [Except.map, Except.ok.injEq] at h
        rw [← h]
        exact List.mem_cons_self _ _
    · cases hf0 : liveEnums.find? (fun x => x.name == e0.name) with
      | none =>
        rw [hf0] at h
        dsimp only at h
        exact ih h htl
      | some le0 =>
        rw [hf0] at h
        dsimp only at h
        by_cases heq0 : le0.labels = e0.labels
        · rw [if_pos heq0] at h
          exact ih h htl
        · rw [if_neg heq0] at h
          by_cases hext0 : labelsExtend le0.labels e0.labels = true
          · rw [if_pos hext0] at h
            cases hrec : diffEnumAdds liveEnums tl with
            | error er => rw [hrec] at h; simp [Except.map] at h
            | ok l =>
              rw [hrec] at h
              simp only [Except.map, Except.ok.injEq] at h
              rw [← h]
              exact List.mem_cons_of_mem _ (ih hrec htl)
          · rw [if_neg hext0] at h
            cases h

theorem diffEnumAdds_names_sublist {liveEnums rest : List EnumType}
    {adds : List (String × List String)}
    (h : diffEnumAdds liveEnums rest = .ok adds) :
    (adds.map Prod.fst).Sublist (rest.map (fun e => e.name)) := by
  induction rest generalizing adds with
  | nil =>
    simp only [diffEnumAdds, Except.ok.injEq] at h
    rw [← h]
    simp
  | cons e0 tl ih =>
    simp only [diffEnumAdds] at h
    cases hf0 : liveEnums.find? (fun x => x.name == e0.name) with
    | none =>
      rw [hf0] at h
      dsimp only at h
      exact (ih h).cons _
    | some le0 =>
      rw [hf0] at h
      dsimp only at h
      by_cases heq0 : le0.labels = e0.labels
      · rw [if_pos heq0] at h
        exact (ih h).cons _
      · rw [if_neg heq0] at h
        by_cases hext0 : labelsExtend le0.labels e0.labels = true
        · rw [if_pos hext0] at h
          cases hrec : diffEnumAdds liveEnums tl with
          | error er => rw [hrec] at h; simp [Except.map] at h
          | ok l =>
            rw [hrec] at h
            simp only [Except.map, Except.ok.injEq] at h
            rw [← h]
            exact (ih hrec).cons₂ _
        · rw [if_neg hext0] at h
          cases h

theorem mem_split_unique {l : List (String × List String)} {p : String × List String}
    (hp : p ∈ l) (hnd : (l.map Prod.fst).Nodup) :
    ∃ l1 l2, l = l1 ++ p :: l2 ∧ (∀ q ∈ l1, q.1 ≠ p.1) ∧ (∀ q ∈ l2, q.1 ≠ p.1) := by
  rcases List.append_of_mem hp with ⟨l1, l2, rfl⟩
  rw [List.map_append, List.map_cons] at hnd
  rcases List.nodup_append.mp hnd with ⟨h1, h2, hdisj⟩
  refine ⟨l1, l2, rfl, ?_, ?_⟩
  · intro q hq hc
    exact hdisj (List.mem_map_of_mem Prod.fst hq)
      (by rw [hc]; exact List.mem_cons_self _ _)
  · intro q hq hc
    exact (List.nodup_cons.mp h2).1 (hc ▸ List.mem_map_of_mem Prod.fst hq)

theorem mem_createEnums_not_live {live desired : Schema} {d : SchemaDiff}
    (hd : computeDiff live desired = .ok d) {e : EnumType} (he : e ∈ d.createEnums) :
    findEnum live e.name = none := by
  rw [(computeDiff_ok_parts hd).2.2.1] at he
  exact Option.isNone_iff_eq_none.mp (List.mem_filter.mp he).2

theorem mem_dropEnums_not_desired {live desired : Schema} {d : SchemaDiff}
    (hd : computeDiff live desired = .ok d) {m : String} (hm : m ∈ d.dropEnums) :
    findEnum desired m = none := by
  rw [(computeDiff_ok_parts hd).2.2.2.1] at hm
  rcases List.mem_map.mp hm with ⟨e, he, rfl⟩
  exact Option.isNone_iff_eq_none.mp (List.mem_filter.mp he).2

/-- A table-create operation in a plan can only come from the diff's
`createTables`, stripped of its foreign keys. -/
theorem createTable_mem_plan {live desired : Schema} {d : SchemaDiff} {t' : Table}
    (h : Op.createTable t' ∈ planDiff live desired d) :
    ∃ t0 ∈ d.createTables, t' = { t0 with foreignKeys := [] } := by
  rw [planDiff_decomp] at h
  simp only [List.mem_append] at h
  rcases h with h | h | h | h
  · have := rank_preDropOps h; simp [Op.rank] at this
  · have := rank_dropTableOps h; simp [Op.rank] at this
  · rcases List.mem_map.mp h with ⟨t0, ht0, heq⟩
    injection heq with heq
    exact ⟨t0, ht0, heq.symm⟩
  · have := rank_postCreateOps h; simp [Op.rank] at this

/-! ## Decomposing a plan around the enum-extension phase -/

def enumRestOps (live desired : Schema) (d : SchemaDiff) : List Op :=
  dropFKOps live desired ++ (dropIndexOps d ++ (dropUniqueOps d ++ (dropColumnOps d ++
    (dropTableOps d ++ (createTableOps d ++ (alterTypeOps d ++ (alterNullableOps d ++
      (alterDefaultOps d ++ (addColumnOps d ++ (addUniqueOps d ++ (addIndexOps d ++
        (changePKOps d ++ (addFKOps live desired ++ dropEnumOps d)))))))))))))

theorem planDiff_decomp2 (live desired : Schema) (d : SchemaDiff) :
    planDiff live desired d =
      createEnumOps d ++ (addEnumValueOps d ++ enumRestOps live desired d) := by
  simp [planDiff, enumRestOps, List.append_assoc]

theorem touchesEnum_false_of_rank_mid {en : String} {op : Op} {k : Nat}
    (hk : op.rank = k) (h0 : k ≠ 0) (h1 : k ≠ 1) (h16 : k ≠ 16) :
    touchesEnum en op = false :=
  touchesEnum_false_of_rank (by rw [hk]; exact h0) (by rw [hk]; exact h1)
    (by rw [hk]; exact h16)

theorem touchesEnum_enumRestOps {live desired : Schema} {d : SchemaDiff} {en : String}
    (hd : computeDiff live desired = .ok d) (hde : (findEnum desired en).isSome = true)
    {op : Op} (h : op ∈ enumRestOps live desired d) : touchesEnum en op = false := by
  simp only [enumRestOps, List.mem_append] at h
  rcases h with h | h | h | h | h | h | h | h | h | h | h | h | h | h | h
  · exact touchesEnum_false_of_rank_mid (rank_dropFKOps h) (by omega) (by omega) (by omega)
  · exact touchesEnum_false_of_rank_mid (rank_dropIndexOps h) (by omega) (by omega) (by omega)
  · exact touchesEnum_false_of_rank_mid (rank_dropUniqueOps h) (by omega) (by omega) (by omega)
  · exact touchesEnum_false_of_rank_mid (rank_dropColumnOps h) (by omega) (by omega) (by omega)
  · exact touchesEnum_false_of_rank_mid (rank_dropTableOps h) (by omega) (by omega) (by omega)
  · exact touchesEnum_false_of_rank_mid (rank_createTableOps h) (by omega) (by omega) (by omega)
  · exact touchesEnum_false_of_rank_mid (rank_alterTypeOps h) (by omega) (by omega) (by omega)
  · exact touchesEnum_false_of_rank_mid (rank_alterNullableOps h) (by omega) (by omega) (by omega)
  · exact touchesEnum_false_of_rank_mid (rank_alterDefaultOps h) (by omega) (by omega) (by omega)
  · exact touchesEnum_false_of_rank_mid (rank_addColumnOps h) (by omega) (by omega) (by omega)
  · exact touchesEnum_false_of_rank_mid (rank_addUniqueOps h) (by omega) (by omega) (by omega)
  · exact touchesEnum_false_of_rank_mid (rank_addIndexOps h) (by omega) (by omega) (by omega)
  · exact touchesEnum_false_of_rank_mid (rank_changePKOps h) (by omega) (by omega) (by omega)
  · exact touchesEnum_false_of_rank_mid (rank_addFKOps h) (by omega) (by omega) (by omega)
  · rcases List.mem_map.mp h with ⟨m, hm, rfl⟩
    have hnone := mem_dropEnums_not_desired hd hm
    have hne : m ≠ en := fun hc => by
      rw [hc] at hnone
      rw [hnone] at hde
      cases hde
    simp [touchesEnum, hne]

theorem touchesEnum_createEnumOps {live desired : Schema} {d : SchemaDiff} {en : String}
    (hd : computeDiff live desired = .ok d) (hle : (findEnum live en).isSome = true)
    {op : Op} (h : op ∈ createEnumOps d) : touchesEnum en op = false := by
  rcases List.mem_map.mp h with ⟨e, he, rfl⟩
  have hnone := mem_createEnums_not_live hd he
  have hne : e.name ≠ en := fun hc => by
    rw [hc] at hnone
    rw [hnone] at hle
    cases hle
  simp [touchesEnum, hne]

def exDbEnum' : Schema := { tables := [exTasks], enums := [exStatus4] }

def exPlanEnum : List Op := [Op.addEnumValues "status" ["completed"]]

/-- C7: Enum extension.  When an enum present in both live and desired
schemas has its desired label sequence extend the live one by appending
new labels, the plan contains `AddEnumValues` with exactly the new
labels in order; after a successful run the enum holds the full desired
label sequence; and no table present in both schemas (in particular no
table using the enum) is dropped or recreated by the plan. -/
theorem c7_enum_extension (db desired db' : Schema) (plan : List Op) (en : String)
    (le de : EnumType) (hnew : List String)
    (hnd : (enumNames desired).Nodup)
    (hle : findEnum (reflect db) en = some le)
    (hde : findEnum desired en = some de)
    (hlab : de.labels = le.labels ++ hnew) (hne : hnew ≠ [])
    (hrun : runEngine db desired = .ok (db', plan)) :
    Op.addEnumValues en hnew ∈ plan ∧
    (∃ e', findEnum db' en = some e' ∧ e'.labels = de.labels) ∧
    (∀ tn, (findTable (reflect db) tn).isSome = true →
      (findTable desired tn).isSome = true →
      Op.dropTable tn ∉ plan ∧ ∀ t : Table, t.name = tn → Op.createTable t ∉ plan) := by
  obtain ⟨d, hd, hplan, happ⟩ := runEngine_ok_parts hrun
  have hadds := (computeDiff_ok_parts hd).2.2.2.2.1
  have hdemem : de ∈ desired.enums := List.mem_of_find?_eq_some hde
  have hdename : de.name = en := by
    have := List.find?_some hde
    simpa using this
  have hfde : (reflect db).enums.find? (fun x => x.name == de.name) = some le := by
    rw [hdename]; exact hle
  have hlne : le.labels ≠ de.labels := by
    intro hc
    rw [← hc] at hlab
    have hlen := congrArg List.length hlab
    simp only [List.length_append] at hlen
    exact hne (List.length_eq_zero.mp (by omega))
  have hext : labelsExtend le.labels de.labels = true :=
    labelsExtend_iff_append.mpr ⟨hnew, hlab⟩
  have hdrop : de.labels.drop le.labels.length = hnew := by
    rw [hlab]; exact List.drop_left _ _
  have hmem : (en, hnew) ∈ d.addEnumValues := by
    have := diffEnumAdds_mem hadds hdemem hfde hlne hext
    rw [hdename, hdrop] at this
    exact this
  have hleSome : (findEnum (reflect db) en).isSome = true := by rw [hle]; rfl
  have hdeSome : (findEnum desired en).isSome = true := by rw [hde]; rfl
  refine ⟨?_, ?_, ?_⟩
  · rw [hplan, planDiff_decomp2]
    refine List.mem_append_right _ (List.mem_append_left _ ?_)
    exact List.mem_map_of_mem (fun p => Op.addEnumValues p.1 p.2) hmem
  · have hndadds : (d.addEnumValues.map Prod.fst).Nodup :=
      (diffEnumAdds_names_sublist hadds).nodup (by simpa [enumNames] using hnd)
    rcases mem_split_unique hmem hndadds with ⟨a1, a2, hsplit, hna1, hna2⟩
    rw [hplan, planDiff_decomp2, applyPlan_append] at happ
    rcases Option.bind_eq_some.mp happ with ⟨db1, hsC, happ2⟩
    rw [applyPlan_append] at happ2
    rcases Option.bind_eq_some.mp happ2 with ⟨db2, hsA, hsR⟩
    have hAform : addEnumValueOps d =
        (a1.map (fun p => Op.addEnumValues p.1 p.2)) ++
          (Op.addEnumValues en hnew :: a2.map (fun p => Op.addEnumValues p.1 p.2)) := by
      simp [addEnumValueOps, hsplit]
    rw [hAform, applyPlan_append] at hsA
    rcases Option.bind_eq_some.mp hsA with ⟨db1a, hsA1, hsA2⟩
    simp only [applyPlan] at hsA2
    cases hop : applyOp db1a (Op.addEnumValues en hnew) with
    | none => rw [hop] at hsA2; cases hsA2
    | some db1b =>
      rw [hop] at hsA2
      have hE0 : findEnum db1 en = findEnum db en :=
        applyPlan_findEnum_preserved hsC
          (fun op hop' => touchesEnum_createEnumOps hd hleSome hop')
      have hE1 : findEnum db1a en = findEnum db1 en :=
        applyPlan_findEnum_preserved hsA1 (fun op hop' => by
          rcases List.mem_map.mp hop' with ⟨q, hq, rfl⟩
          have := hna1 q hq
          simp [touchesEnum, this])
      rcases applyOp_addEnumValues hop with ⟨e0, he0, he0'⟩
      have hdben : findEnum db en = some le := hle
      rw [hE1, hE0, hdben] at he0
      injection he0 with he0
      have hE2 : findEnum db2 en = findEnum db1b en :=
        applyPlan_findEnum_preserved hsA2 (fun op hop' => by
          rcases List.mem_map.mp hop' with ⟨q, hq, rfl⟩
          have := hna2 q hq
          simp [touchesEnum, this])
      have hE3 : findEnum db' en = findEnum db2 en :=
        applyPlan_findEnum_preserved hsR
          (fun op hop' => touchesEnum_enumRestOps hd hdeSome hop')
      refine ⟨{ e0 with labels := e0.labels ++ hnew }, ?_, ?_⟩
      · rw [hE3, hE2]; exact he0'
      · show e0.labels ++ hnew = de.labels
        rw [← he0]
        exact hlab.symm
  · intro tn hlive hdes
    constructor
    · intro hmem'
      rw [hplan] at hmem'
      have := dropTable_mem_plan hmem'
      rw [mem_dropTables hd] at this
      exact this.2.1 (findTable_isSome_iff.mp hdes)
    · intro t htn hmem'
      rw [hplan] at hmem'
      rcases createTable_mem_plan hmem' with ⟨t0, ht0, heq⟩
      have hnot : t0.name ∉ tableNames (reflect db) :=
        ((mem_createTables_names hd).mp
          (List.mem_map_of_mem (fun t : Table => t.name) ht0)).2
      apply hnot
      have ht0n : t0.name = tn := by rw [← htn, heq]
      rw [ht0n]
      exact findTable_isSome_iff.mp hlive

/-- Witness for C7: extending `status` from three to four labels emits
`AddEnumValues status [completed]`, the enum ends with the four labels,
and the `tasks` table is neither dropped nor recreated. -/
theorem c7_enum_extension_witness :
    Op.addEnumValues "status" ["completed"] ∈ exPlanEnum ∧
    (∃ e', findEnum exDbEnum' "status" = some e' ∧ e'.labels = exStatus4.labels) ∧
    (∀ tn, (findTable (reflect exDbEnum) tn).isSome = true →
      (findTable exWantEnum tn).isSome = true →
      Op.dropTable tn ∉ exPlanEnum ∧
        ∀ t : Table, t.name = tn → Op.createTable t ∉ exPlanEnum) :=
  c7_enum_extension exDbEnum exWantEnum exDbEnum' exPlanEnum "status" exStatus
    exStatus4 ["completed"] (by decide) rfl rfl rfl (by decide) rfl

/-! ## Tracking the foreign keys of one column through a plan -/

/-- The table on which an operation acts, if any. -/
def Op.tableName? : Op → Option String
  | .createEnum .. => none
  | .addEnumValues .. => none
  | .dropEnum .. => none
  | .createTable t => some t.name
  | .dropTable n => some n
  | .addColumn tb _ => some tb
  | .dropColumn tb _ => some tb
  | .alterColumnType tb _ _ => some tb
  | .alterColumnNullable tb _ _ => some tb
  | .alterColumnDefault tb _ _ => some tb
  | .addUnique tb _ => some tb
  | .dropUnique tb _ => some tb
  | .addIndex tb _ => some tb
  | .dropIndex tb _ => some tb
  | .addForeignKey tb _ => some tb
  | .dropForeignKey tb _ => some tb
  | .changePrimaryKey tb _ => some tb

theorem updateTable_find?_other {db db' : Schema} {n tn : String}
    {f : Table → Option Table} (hf : NamePreserving f)
    (h : updateTable db n f = some db') (hne : tn ≠ n) :
    findTable db' tn = findTable db tn := by
  rcases updateTable_parts h with ⟨ts', hts, rfl⟩
  exact updateTables_find?_other hf hts hne

/-- An operation acting on another table (or only on enums) does not
change the lookup of table `tn`. -/
theorem applyOp_findTable_other {db db' : Schema} {op : Op} {tn : String}
    (h : applyOp db op = some db') (hne : op.tableName? ≠ some tn) :
    findTable db' tn = findTable db tn := by
  cases op with
  | createEnum n ls =>
    simp only [applyOp] at h
    split at h
    · cases h
    · cases h; rfl
  | addEnumValues n ls =>
    simp only [applyOp] at h
    rcases Option.map_eq_some'.mp h with ⟨es, _, rfl⟩
    rfl
  | dropEnum n =>
    simp only [applyOp] at h
    split at h
    · cases h; rfl
    · cases h
  | createTable t =>
    have hne' : t.name ≠ tn := fun hc => hne (by simp [Op.tableName?, hc])
    rcases applyOp_createTable h with ⟨_, htab⟩
    show findTable db' tn = findTable db tn
    unfold findTable
    rw [htab]
    exact find?_name_append_other (fun t : Table => t.name) db.tables t hne'
  | dropTable n =>
    have hne' : tn ≠ n := fun hc => hne (by simp [Op.tableName?, hc])
    rcases applyOp_dropTable h with ⟨_, htab⟩
    show findTable db' tn = findTable db tn
    unfold findTable
    rw [htab]
    exact find?_name_filter_other (fun t : Table => t.name) db.tables hne'
  | addColumn tb c =>
    have hne' : tn ≠ tb := fun hc => hne (by simp [Op.tableName?, hc])
    simp only [applyOp] at h
    split at h
    · refine updateTable_find?_other ?_ h hne'
      intro t t' ht
      dsimp only at ht
      split at ht
      · cases ht
      · cases ht; rfl
    · cases h
  | dropColumn tb cn =>
    have hne' : tn ≠ tb := fun hc => hne (by simp [Op.tableName?, hc])
    simp only [applyOp] at h
    split at h
    · cases h
    · refine updateTable_find?_other ?_ h hne'
      intro t t' ht
      dsimp only at ht
      split at ht
      · cases ht; rfl
      · cases ht
  | alterColumnType tb cn ty =>
    have hne' : tn ≠ tb := fun hc => hne (by simp [Op.tableName?, hc])
    simp only [applyOp] at h
    split at h
    · exact updateTable_find?_other (fun t t' ht => setColumn_name ht) h hne'
    · cases h
  | alterColumnNullable tb cn b =>
    have hne' : tn ≠ tb := fun hc => hne (by simp [Op.tableName?, hc])
    simp only [applyOp] at h
    exact updateTable_find?_other (fun t t' ht => setColumn_name ht) h hne'
  | alterColumnDefault tb cn dflt =>
    have hne' : tn ≠ tb := fun hc => hne (by simp [Op.tableName?, hc])
    simp only [applyOp] at h
    exact updateTable_find?_other (fun t t' ht => setColumn_name ht) h hne'
  | addUnique tb cols =>
    have hne' : tn ≠ tb := fun hc => hne (by simp [Op.tableName?, hc])
    simp only [applyOp] at h
    refine updateTable_find?_other ?_ h hne'
    intro t t' ht
    dsimp only at ht
    split at ht
    · cases ht
    · cases ht; rfl
  | dropUnique tb cols =>
    have hne' : tn ≠ tb := fun hc => hne (by simp [Op.tableName?, hc])
    simp only [applyOp] at h
    refine updateTable_find?_other ?_ h hne'
    intro t t' ht
    dsimp only at ht
    split at ht
    · cases ht; rfl
    · cases ht
  | addIndex tb cols =>
    have hne' : tn ≠ tb := fun hc => hne (by simp [Op.tableName?, hc])
    simp only [applyOp] at h
    refine updateTable_find?_other ?_ h hne'
    intro t t' ht
    dsimp only at ht
    split at ht
    · cases ht
    · cases ht; rfl
  | dropIndex tb cols =>
    have hne' : tn ≠ tb := fun hc => hne (by simp [Op.tableName?, hc])
    simp only [applyOp] at h
    refine updateTable_find?_other ?_ h hne'
    intro t t' ht
    dsimp only at ht
    split at ht
    · cases ht; rfl
    · cases ht
  | addForeignKey tb fk =>
    have hne' : tn ≠ tb := fun hc => hne (by simp [Op.tableName?, hc])
    simp only [applyOp] at h
    cases hft : findTable db fk.foreignTable with
    | none => rw [hft] at h; cases h
    | some ft =>
      rw [hft] at h
      dsimp only at h
      split at h
      · refine updateTable_find?_other ?_ h hne'
        intro t t' ht
        dsimp only at ht
        split at ht
        · cases ht
        · cases ht; rfl
      · cases h
  | dropForeignKey tb cn =>
    have hne' : tn ≠ tb := fun hc => hne (by simp [Op.tableName?, hc])
    simp only [applyOp] at h
    refine updateTable_find?_other ?_ h hne'
    intro t t' ht
    dsimp only at ht
    split at ht
    · cases ht; rfl
    · cases ht
  | changePrimaryKey tb cols =>
    have hne' : tn ≠ tb := fun hc => hne (by simp [Op.tableName?, hc])
    simp only [applyOp] at h
    refine updateTable_find?_other ?_ h hne'
    intro t t' ht
    dsimp only at ht
    split at ht
    · cases ht; rfl
    · cases ht

/-- The foreign keys on a given local column of a given table. -/
def fksOn (db : Schema) (tn c : String) : List ForeignKey :=
  match findTable db tn with
  | some t => t.foreignKeys.filter (fun fk => fk.localCol == c)
  | none => []

/-- Whether an operation can change the foreign keys on local column `c`
of table `tn`. -/
def touchesFKview (tn c : String) : Op → Bool
  | .dropForeignKey tb cc => tb == tn && cc == c
  | .addForeignKey tb fk => tb == tn && fk.localCol == c
  | .createTable t => t.name == tn
  | .dropTable n => n == tn
  | _ => false

theorem updateTable_find?_self' {db db' : Schema} {n : String}
    {f : Table → Option Table} (hf : NamePreserving f)
    (h : updateTable db n f = some db') :
    ∃ t t', findTable db n = some t ∧ f t = some t' ∧ findTable db' n = some t' := by
  rcases updateTable_parts h with ⟨ts', hts, rfl⟩
  exact updateTables_find?_self hf hts

theorem fksOn_eq_of_tables {db db' : Schema} {tn c : String} {t t' : Table}
    (h1 : findTable db tn = some t) (h2 : findTable db' tn = some t')
    (hfk : t'.foreignKeys.filter (fun fk => fk.localCol == c) =
      t.foreignKeys.filter (fun fk => fk.localCol == c)) :
    fksOn db' tn c = fksOn db tn c := by
  unfold fksOn
  rw [h1, h2]
  exact hfk

theorem fksOn_preserved {db db' : Schema} {op : Op} {tn c : String}
    (h : applyOp db op = some db') (ht : touchesFKview tn c op = false) :
    fksOn db' tn c = fksOn db tn c := by
  by_cases htb : op.tableName? = some tn
  · cases op with
    | createEnum n ls => cases htb
    | addEnumValues n ls => cases htb
    | dropEnum n => cases htb
    | createTable t =>
      injection htb with htb
      simp [touchesFKview, htb] at ht
    | dropTable n =>
      injection htb with htb
      simp [touchesFKview, htb] at ht
    | addColumn tb c0 =>
      injection htb with htb
      subst htb
      simp only [applyOp] at h
      split at h
      · rcases updateTable_find?_self' (f := fun t =>
            if (findColumn t c0.name).isSome = true then none
            else some { t with columns := t.columns ++ [c0] })
            (fun t t' ht' => by dsimp only at ht'; split at ht' <;> cases ht' <;> rfl) h with ⟨t, t', h1, h2, h3⟩
        try dsimp only at h2
        split at h2
        · cases h2
        · cases h2
          exact fksOn_eq_of_tables h1 h3 rfl
      · cases h
    | dropColumn tb cn =>
      injection htb with htb
      subst htb
      simp only [applyOp] at h
      split at h
      · cases h
      · rcases updateTable_find?_self' (f := fun t =>
            if ((findColumn t cn).isSome &&
                t.foreignKeys.all fun fk => fk.localCol != cn) = true then
              some { t with columns := t.columns.filter (fun c => c.name != cn) }
            else none)
            (fun t t' ht' => by dsimp only at ht'; split at ht' <;> cases ht' <;> rfl) h with ⟨t, t', h1, h2, h3⟩
        try dsimp only at h2
        split at h2
        · cases h2
          exact fksOn_eq_of_tables h1 h3 rfl
        · cases h2
    | alterColumnType tb cn ty =>
      injection htb with htb
      subst htb
      simp only [applyOp] at h
      split at h
      · rcases updateTable_find?_self'
            (fun t t' ht' => setColumn_name ht') h with ⟨t, t', h1, h2, h3⟩
        unfold setColumn at h2
        split at h2
        · cases h2
          exact fksOn_eq_of_tables h1 h3 rfl
        · cases h2
      · cases h
    | alterColumnNullable tb cn b =>
      injection htb with htb
      subst htb
      simp only [applyOp] at h
      rcases updateTable_find?_self'
          (fun t t' ht' => setColumn_name ht') h with ⟨t, t', h1, h2, h3⟩
      unfold setColumn at h2
      split at h2
      · cases h2
        exact fksOn_eq_of_tables h1 h3 rfl
      · cases h2
    | alterColumnDefault tb cn dflt =>
      injection htb with htb
      subst htb
      simp only [applyOp] at h
      rcases updateTable_find?_self'
          (fun t t' ht' => setColumn_name ht') h with ⟨t, t', h1, h2, h3⟩
      unfold setColumn at h2
      split at h2
      · cases h2
        exact fksOn_eq_of_tables h1 h3 rfl
      · cases h2
    | addUnique tb cols =>
      injection htb with htb
      subst htb
      simp only [applyOp] at h
      rcases updateTable_find?_self' (f := fun t =>
          if (decide (cols ∈ t.uniques) ||
              !(cols.all (fun cn => (findColumn t cn).isSome))) = true then none
          else some { t with uniques := t.uniques ++ [cols] })
          (fun t t' ht' => by dsimp only at ht'; split at ht' <;> cases ht' <;> rfl) h with ⟨t, t', h1, h2, h3⟩
      try dsimp only at h2
      split at h2
      · cases h2
      · cases h2
        exact fksOn_eq_of_tables h1 h3 rfl
    | dropUnique tb cols =>
      injection htb with htb
      subst htb
      simp only [applyOp] at h
      rcases updateTable_find?_self' (f := fun t =>
          if decide (cols ∈ t.uniques) = true then
            some { t with uniques := t.uniques.filter (fun u => decide (u ≠ cols)) }
          else none)
          (fun t t' ht' => by dsimp only at ht'; split at ht' <;> cases ht' <;> rfl) h with ⟨t, t', h1, h2, h3⟩
      try dsimp only at h2
      split at h2
      · cases h2
        exact fksOn_eq_of_tables h1 h3 rfl
      · cases h2
    | addIndex tb cols =>
      injection htb with htb
      subst htb
      simp only [applyOp] at h
      rcases updateTable_find?_self' (f := fun t =>
          if (decide (cols ∈ t.indexes) ||
              !(cols.all (fun cn => (findColumn t cn).isSome))) = true then none
          else some { t with indexes := t.indexes ++ [cols] })
          (fun t t' ht' => by dsimp only at ht'; split at ht' <;> cases ht' <;> rfl) h with ⟨t, t', h1, h2, h3⟩
      try dsimp only at h2
      split at h2
      · cases h2
      · cases h2
        exact fksOn_eq_of_tables h1 h3 rfl
    | dropIndex tb cols =>
      injection htb with htb
      subst htb
      simp only [applyOp] at h
      rcases updateTable_find?_self' (f := fun t =>
          if decide (cols ∈ t.indexes) = true then
            some { t with indexes := t.indexes.filter (fun u => decide (u ≠ cols)) }
          else none)
          (fun t t' ht' => by dsimp only at ht'; split at ht' <;> cases ht' <;> rfl) h with ⟨t, t', h1, h2, h3⟩
      try dsimp only at h2
      split at h2
      · cases h2
        exact fksOn_eq_of_tables h1 h3 rfl
      · cases h2
    | addForeignKey tb fk =>
      injection htb with htb
      subst htb
      have hlc : (fk.localCol == c) = false := by
        simpa [touchesFKview] using ht
      simp only [applyOp] at h
      cases hft : findTable db fk.foreignTable with
      | none => rw [hft] at h; cases h
      | some ft =>
        rw [hft] at h
        dsimp only at h
        split at h
        · rcases updateTable_find?_self' (f := fun t =>
              if ((fkByLocal t fk.localCol).isSome ||
                  (findColumn t fk.localCol).isNone) = true then none
              else some { t with foreignKeys := t.foreignKeys ++ [fk] })
              (fun t t' ht' => by dsimp only at ht'; split at ht' <;> cases ht' <;> rfl) h with ⟨t, t', h1, h2, h3⟩
          try dsimp only at h2
          split at h2
          · cases h2
          · cases h2
            refine fksOn_eq_of_tables h1 h3 ?_
            show (t.foreignKeys ++ [fk]).filter (fun fk => fk.localCol == c) = _
            rw [List.filter_append]
            simp [hlc]
        · cases h
    | dropForeignKey tb cc =>
      injection htb with htb
      subst htb
      have hcc : (cc == c) = false := by
        simpa [touchesFKview] using ht
      simp only [applyOp] at h
      rcases updateTable_find?_self' (f := fun t =>
          if (fkByLocal t cc).isSome = true then
            some { t with foreignKeys :=
              t.foreignKeys.filter (fun fk => fk.localCol != cc) }
          else none)
          (fun t t' ht' => by dsimp only at ht'; split at ht' <;> cases ht' <;> rfl) h with ⟨t, t', h1, h2, h3⟩
      try dsimp only at h2
      split at h2
      · cases h2
        refine fksOn_eq_of_tables h1 h3 ?_
        show (t.foreignKeys.filter (fun fk => fk.localCol != cc)).filter
          (fun fk => fk.localCol == c) = _
        rw [List.filter_filter]
        refine List.filter_congr (fun fk _ => ?_)
        by_cases hfc : fk.localCol = c
        · have hccne : c ≠ cc := fun hcon => by rw [← hcon] at hcc; simp at hcc
          simp [hfc, hccne]
        · simp [hfc]
      · cases h2
    | changePrimaryKey tb cols =>
      injection htb with htb
      subst htb
      simp only [applyOp] at h
      rcases updateTable_find?_self' (f := fun t =>
          if cols.all (fun cn => (findColumn t cn).isSome) = true then
            some { t with primaryKey := cols }
          else none)
          (fun t t' ht' => by dsimp only at ht'; split at ht' <;> cases ht' <;> rfl) h with ⟨t, t', h1, h2, h3⟩
      try dsimp only at h2
      split at h2
      · cases h2
        exact fksOn_eq_of_tables h1 h3 rfl
      · cases h2
  · unfold fksOn
    rw [applyOp_findTable_other h htb]

theorem applyOp_addFK_effect {db db' : Schema} {tn : String} {fk : ForeignKey}
    (h : applyOp db (.addForeignKey tn fk) = some db') :
    ∃ t, findTable db tn = some t ∧ fkByLocal t fk.localCol = none ∧
      findTable db' tn = some { t with foreignKeys := t.foreignKeys ++ [fk] } := by
  simp only [applyOp] at h
  cases hft : findTable db fk.foreignTable with
  | none => rw [hft] at h; cases h
  | some ft =>
    rw [hft] at h
    dsimp only at h
    split at h
    · rcases updateTable_find?_self' (f := fun t =>
          if ((fkByLocal t fk.localCol).isSome ||
              (findColumn t fk.localCol).isNone) = true then none
          else some { t with foreignKeys := t.foreignKeys ++ [fk] })
          (fun t t' ht' => by dsimp only at ht'; split at ht' <;> cases ht' <;> rfl)
          h with ⟨t, t', h1, h2, h3⟩
      try dsimp only at h2
      split at h2
      case isTrue => cases h2
      case isFalse hcond =>
        cases h2
        rw [Bool.or_eq_true] at hcond
        push_neg at hcond
        refine ⟨t, h1, ?_, h3⟩
        have := hcond.1
        cases hfkb : fkByLocal t fk.localCol with
        | none => rfl
        | some _ => rw [hfkb] at this; simp at this
    · cases h

theorem applyOp_dropFK_effect {db db' : Schema} {tn cn : String}
    (h : applyOp db (.dropForeignKey tn cn) = some db') :
    ∃ t, findTable db tn = some t ∧
      findTable db' tn =
        some { t with foreignKeys :=
          t.foreignKeys.filter (fun fk => fk.localCol != cn) } := by
  simp only [applyOp] at h
  rcases updateTable_find?_self' (f := fun t =>
      if (fkByLocal t cn).isSome = true then
        some { t with foreignKeys := t.foreignKeys.filter (fun fk => fk.localCol != cn) }
      else none)
      (fun t t' ht' => by dsimp only at ht'; split at ht' <;> cases ht' <;> rfl)
      h with ⟨t, t', h1, h2, h3⟩
  try dsimp only at h2
  split at h2
  · cases h2
    exact ⟨t, h1, h3⟩
  · cases h2

theorem fksOn_preserved_plan {db db' : Schema} {ops : List Op} {tn c : String}
    (h : applyPlan db ops = some db')
    (hfil : ops.filter (touchesFKview tn c) = []) :
    fksOn db' tn c = fksOn db tn c := by
  induction ops generalizing db with
  | nil =>
    simp only [applyPlan, Option.some.injEq] at h
    rw [← h]
  | cons op ops ih =>
    simp only [applyPlan] at h
    cases hop : applyOp db op with
    | none => rw [hop] at h; cases h
    | some db1 =>
      rw [hop] at h
      by_cases ht : touchesFKview tn c op = true
      · rw [List.filter_cons_of_pos ht] at hfil
        cases hfil
      · rw [List.filter_cons_of_neg (by simpa using ht)] at hfil
        rw [ih h hfil]
        exact fksOn_preserved hop (by simpa using ht)

theorem fksOn_apply_one_step {db db' : Schema} {ops : List Op} {tn c : String}
    {dfk : ForeignKey} (h : applyPlan db ops = some db')
    (hfil : ops.filter (touchesFKview tn c) = [Op.addForeignKey tn dfk])
    (hl : dfk.localCol = c) :
    fksOn db' tn c = [dfk] := by
  induction ops generalizing db with
  | nil => cases hfil
  | cons op ops ih =>
    simp only [applyPlan] at h
    cases hop : applyOp db op with
    | none => rw [hop] at h; cases h
    | some db1 =>
      rw [hop] at h
      by_cases ht : touchesFKview tn c op = true
      · rw [List.filter_cons_of_pos ht] at hfil
        injection hfil with h1 h2
        subst h1
        rcases applyOp_addFK_effect hop with ⟨t, h1', hnone, h3'⟩
        have hview1 : fksOn db1 tn c = [dfk] := by
          unfold fksOn
          rw [h3']
          show (t.foreignKeys ++ [dfk]).filter (fun fk => fk.localCol == c) = [dfk]
          rw [List.filter_append]
          have hempty : t.foreignKeys.filter (fun fk => fk.localCol == c) = [] := by
            refine List.filter_eq_nil_iff.mpr (fun fk hfk => ?_)
            have := List.find?_eq_none.mp (by rw [hl] at hnone; exact hnone) fk hfk
            simpa using this
          rw [hempty]
          simp [hl]
        rw [fksOn_preserved_plan h h2, hview1]
      · rw [List.filter_cons_of_neg (by simpa using ht)] at hfil
        exact ih h hfil

theorem fksOn_apply_two_step {db db' : Schema} {ops : List Op} {tn c : String}
    {dfk : ForeignKey} (h : applyPlan db ops = some db')
    (hfil : ops.filter (touchesFKview tn c) =
      [Op.dropForeignKey tn c, Op.addForeignKey tn dfk])
    (hl : dfk.localCol = c) :
    fksOn db' tn c = [dfk] := by
  induction ops generalizing db with
  | nil => cases hfil
  | cons op ops ih =>
    simp only [applyPlan] at h
    cases hop : applyOp db op with
    | none => rw [hop] at h; cases h
    | some db1 =>
      rw [hop] at h
      by_cases ht : touchesFKview tn c op = true
      · rw [List.filter_cons_of_pos ht] at hfil
        injection hfil with h1 h2
        exact fksOn_apply_one_step h h2 hl
      · rw [List.filter_cons_of_neg (by simpa using ht)] at hfil
        exact ih h hfil

/-! ## Computing which plan operations touch one foreign-key view -/

theorem filter_flatMap {α β : Type} (l : List α) (g : α → List β) (p : β → Bool) :
    (l.flatMap g).filter p = l.flatMap (fun x => (g x).filter p) := by
  induction l with
  | nil => rfl
  | cons a tl ih => simp [List.filter_append, ih]

theorem flatMap_singleton {α β : Type} {l : List α} {f : α → String} {target : String}
    {g : α → List β} {lt : α} {b : β}
    (hnd : (l.map f).Nodup) (hmem : lt ∈ l) (hf : f lt = target)
    (hlt : g lt = [b]) (hother : ∀ x ∈ l, f x ≠ target → g x = []) :
    l.flatMap g = [b] := by
  induction l with
  | nil => cases hmem
  | cons a tl ih =>
    simp only [List.map_cons, List.nodup_cons] at hnd
    rcases List.mem_cons.mp hmem with rfl | hmemtl
    · have htl : tl.flatMap g = [] := by
        refine List.flatMap_eq_nil_iff.mpr (fun x hx => ?_)
        refine hother x (List.mem_cons_of_mem _ hx) (fun hc => ?_)
        exact hnd.1 (by rw [hf, ← hc]; exact List.mem_map_of_mem f hx)
      simp [hlt, htl]
    · have hga : g a = [] := by
        refine hother a (List.mem_cons_self _ _) (fun hc => ?_)
        refine hnd.1 ?_
        rw [hc, ← hf]
        exact List.mem_map_of_mem f hmemtl
      simp only [List.flatMap_cons, hga, List.nil_append]
      exact ih hnd.2 hmemtl (fun x hx hfx => hother x (List.mem_cons_of_mem _ hx) hfx)

theorem fks_filter_localCol {l : List ForeignKey} {lfk : ForeignKey}
    {p : ForeignKey → Bool}
    (hnd : (l.map (fun fk => fk.localCol)).Nodup) (hmem : lfk ∈ l) (hp : p lfk = true)
    (himp : ∀ fk ∈ l, p fk = true → fk.localCol = lfk.localCol) :
    l.filter p = [lfk] := by
  induction l with
  | nil => cases hmem
  | cons a tl ih =>
    simp only [List.map_cons, List.nodup_cons] at hnd
    rcases List.mem_cons.mp hmem with rfl | hmemtl
    · rw [List.filter_cons_of_pos hp]
      have htl : tl.filter p = [] := by
        refine List.filter_eq_nil_iff.mpr (fun fk hfk hpfk => ?_)
        exact hnd.1 (himp fk (List.mem_cons_of_mem _ hfk) hpfk ▸
          List.mem_map_of_mem (fun fk => fk.localCol) hfk)
      rw [htl]
    · have hpa : p a = false := by
        cases hpa : p a with
        | false => rfl
        | true =>
          exact absurd
            (himp a (List.mem_cons_self _ _) hpa ▸
              List.mem_map_of_mem (fun fk => fk.localCol) hmemtl)
            hnd.1
      rw [List.filter_cons_of_neg (by simp [hpa])]
      exact ih hnd.2 hmemtl (fun fk hfk hpfk => himp fk (List.mem_cons_of_mem _ hfk) hpfk)

theorem touchesFKview_false_of_rank {tn c : String} {op : Op} (h2 : op.rank ≠ 2)
    (h6 : op.rank ≠ 6) (h7 : op.rank ≠ 7) (h15 : op.rank ≠ 15) :
    touchesFKview tn c op = false := by
  cases op with
  | dropForeignKey tb cc => exact absurd rfl h2
  | dropTable n => exact absurd rfl h6
  | createTable t => exact absurd rfl h7
  | addForeignKey tb fk => exact absurd rfl h15
  | _ => rfl

theorem filter_fkview_nil_of_rank {tn c : String} {l : List Op} {k : Nat}
    (hk : ∀ op ∈ l, op.rank = k) (h2 : k ≠ 2) (h6 : k ≠ 6) (h7 : k ≠ 7)
    (h15 : k ≠ 15) : l.filter (touchesFKview tn c) = [] :=
  List.filter_eq_nil_iff.mpr (fun op hop => by
    rw [touchesFKview_false_of_rank (by rw [hk op hop]; exact h2)
      (by rw [hk op hop]; exact h6) (by rw [hk op hop]; exact h7)
      (by rw [hk op hop]; exact h15)]
    simp)

/-- In a plan produced for a foreign-key retarget on `(tn, c)`, the only
operations that touch the foreign keys of that column are a single
`DropForeignKey` followed (in a later phase) by a single
`AddForeignKey` of the desired foreign key. -/
theorem planDiff_filter_fkview {live desired : Schema} {d : SchemaDiff}
    {tn c : String} {lt dt : Table} {lfk dfk : ForeignKey}
    (hd : computeDiff live desired = .ok d)
    (hlnd : (tableNames live).Nodup) (hdnd : (tableNames desired).Nodup)
    (hlt : findTable live tn = some lt) (hdt : findTable desired tn = some dt)
    (hltnd : (lt.foreignKeys.map (fun fk => fk.localCol)).Nodup)
    (hdtnd : (dt.foreignKeys.map (fun fk => fk.localCol)).Nodup)
    (hlfk : fkByLocal lt c = some lfk) (hdfk : fkByLocal dt c = some dfk)
    (hretarget : lfk.foreignTable ≠ dfk.foreignTable ∨
      lfk.foreignCol ≠ dfk.foreignCol) :
    (planDiff live desired d).filter (touchesFKview tn c) =
      [Op.dropForeignKey tn c, Op.addForeignKey tn dfk] := by
  have hltmem : lt ∈ live.tables := List.mem_of_find?_eq_some hlt
  have hdtmem : dt ∈ desired.tables := List.mem_of_find?_eq_some hdt
  have hltname : lt.name = tn := by have := List.find?_some hlt; simpa using this
  have hdtname : dt.name = tn := by have := List.find?_some hdt; simpa using this
  have hlc : lfk.localCol = c := by have := List.find?_some hlfk; simpa using this
  have hdc : dfk.localCol = c := by have := List.find?_some hdfk; simpa using this
  have hlfkmem : lfk ∈ lt.foreignKeys := List.mem_of_find?_eq_some hlfk
  have hdfkmem : dfk ∈ dt.foreignKeys := List.mem_of_find?_eq_some hdfk
  have htnLive : tn ∈ tableNames live := by
    rw [← hltname]; exact List.mem_map_of_mem _ hltmem
  have htnDes : tn ∈ tableNames desired := by
    rw [← hdtname]; exact List.mem_map_of_mem _ hdtmem
  have hr' : dfk.foreignTable ≠ lfk.foreignTable ∨ dfk.foreignCol ≠ lfk.foreignCol :=
    hretarget.imp Ne.symm Ne.symm
  have hdropTrue : shouldDropFK live desired lt lfk = true := by
    simp only [shouldDropFK, hltname, hdt, hlc, hdfk]
    rw [decide_eq_true hr']
    simp
  have haddTrue : shouldAddFK live desired dt dfk = true := by
    simp only [shouldAddFK, hdtname, hlt, hdc, hlfk]
    exact hdropTrue
  have h0 : (createEnumOps d).filter (touchesFKview tn c) = [] :=
    filter_fkview_nil_of_rank (fun op hop => rank_createEnumOps hop)
      (by omega) (by omega) (by omega) (by omega)
  have h1 : (addEnumValueOps d).filter (touchesFKview tn c) = [] :=
    filter_fkview_nil_of_rank (fun op hop => rank_addEnumValueOps hop)
      (by omega) (by omega) (by omega) (by omega)
  have h3 : (dropIndexOps d).filter (touchesFKview tn c) = [] :=
    filter_fkview_nil_of_rank (fun op hop => rank_dropIndexOps hop)
      (by omega) (by omega) (by omega) (by omega)
  have h4 : (dropUniqueOps d).filter (touchesFKview tn c) = [] :=
    filter_fkview_nil_of_rank (fun op hop => rank_dropUniqueOps hop)
      (by omega) (by omega) (by omega) (by omega)
  have h5 : (dropColumnOps d).filter (touchesFKview tn c) = [] :=
    filter_fkview_nil_of_rank (fun op hop => rank_dropColumnOps hop)
      (by omega) (by omega) (by omega) (by omega)
  have h8 : (alterTypeOps d).filter (touchesFKview tn c) = [] :=
    filter_fkview_nil_of_rank (fun op hop => rank_alterTypeOps hop)
      (by omega) (by omega) (by omega) (by omega)
  have h9 : (alterNullableOps d).filter (touchesFKview tn c) = [] :=
    filter_fkview_nil_of_rank (fun op hop => rank_alterNullableOps hop)
      (by omega) (by omega) (by omega) (by omega)
  have h10 : (alterDefaultOps d).filter (touchesFKview tn c) = [] :=
    filter_fkview_nil_of_rank (fun op hop => rank_alterDefaultOps hop)
      (by omega) (by omega) (by omega) (by omega)
  have h11 : (addColumnOps d).filter (touchesFKview tn c) = [] :=
    filter_fkview_nil_of_rank (fun op hop => rank_addColumnOps hop)
      (by omega) (by omega) (by omega) (by omega)
  have h12 : (addUniqueOps d).filter (touchesFKview tn c) = [] :=
    filter_fkview_nil_of_rank (fun op hop => rank_addUniqueOps hop)
      (by omega) (by omega) (by omega) (by omega)
  have h13 : (addIndexOps d).filter (touchesFKview tn c) = [] :=
    filter_fkview_nil_of_rank (fun op hop => rank_addIndexOps hop)
      (by omega) (by omega) (by omega) (by omega)
  have h14 : (changePKOps d).filter (touchesFKview tn c) = [] :=
    filter_fkview_nil_of_rank (fun op hop => rank_changePKOps hop)
      (by omega) (by omega) (by omega) (by omega)
  have h16 : (dropEnumOps d).filter (touchesFKview tn c) = [] :=
    filter_fkview_nil_of_rank (fun op hop => rank_dropEnumOps hop)
      (by omega) (by omega) (by omega) (by omega)
  have h6 : (dropTableOps d).filter (touchesFKview tn c) = [] :=
    List.filter_eq_nil_iff.mpr (fun op hop => by
      rcases List.mem_map.mp hop with ⟨m, hm, rfl⟩
      have hmd := (mem_dropTables hd).mp hm
      have hmne : m ≠ tn := fun hc => hmd.2.1 (hc ▸ htnDes)
      simp [touchesFKview, hmne])
  have h7 : (createTableOps d).filter (touchesFKview tn c) = [] :=
    List.filter_eq_nil_iff.mpr (fun op hop => by
      rcases List.mem_map.mp hop with ⟨t0, ht0, rfl⟩
      have hnotlive : t0.name ∉ tableNames live :=
        ((mem_createTables_names hd).mp (List.mem_map_of_mem _ ht0)).2
      have hne : t0.name ≠ tn := fun hc => hnotlive (hc ▸ htnLive)
      simp [touchesFKview, hne])
  have h2 : (dropFKOps live desired).filter (touchesFKview tn c) =
      [Op.dropForeignKey tn c] := by
    unfold dropFKOps
    rw [filter_flatMap]
    refine flatMap_singleton (f := fun t : Table => t.name)
      (by simpa [tableNames] using hlnd) hltmem hltname ?_ ?_
    · rw [List.filter_map, List.filter_filter]
      rw [fks_filter_localCol hltnd hlfkmem ?_ ?_]
      · simp [hltname, hlc]
      · show (touchesFKview tn c (Op.dropForeignKey lt.name lfk.localCol) &&
          shouldDropFK live desired lt lfk) = true
        rw [hdropTrue]
        simp [touchesFKview, hltname, hlc]
      · intro fk hfk hp
        rw [Bool.and_eq_true] at hp
        have hcomp := hp.1
        simp only [Function.comp, touchesFKview, Bool.and_eq_true, beq_iff_eq] at hcomp
        rw [hcomp.2, hlc]
    · intro t ht hne
      refine List.filter_eq_nil_iff.mpr (fun op hop => ?_)
      rcases List.mem_map.mp hop with ⟨fk, _, rfl⟩
      simp [touchesFKview, hne]
  have h15 : (addFKOps live desired).filter (touchesFKview tn c) =
      [Op.addForeignKey tn dfk] := by
    unfold addFKOps
    rw [filter_flatMap]
    refine flatMap_singleton (f := fun t : Table => t.name)
      (by simpa [tableNames] using hdnd) hdtmem hdtname ?_ ?_
    · rw [List.filter_map, List.filter_filter]
      rw [fks_filter_localCol hdtnd hdfkmem ?_ ?_]
      · simp [hdtname]
      · show (touchesFKview tn c (Op.addForeignKey dt.name dfk) &&
          shouldAddFK live desired dt dfk) = true
        rw [haddTrue]
        simp [touchesFKview, hdtname, hdc]
      · intro fk hfk hp
        rw [Bool.and_eq_true] at hp
        have hcomp := hp.1
        simp only [Function.comp, touchesFKview, Bool.and_eq_true, beq_iff_eq] at hcomp
        rw [hcomp.2, hdc]
    · intro t ht hne
      refine List.filter_eq_nil_iff.mpr (fun op hop => ?_)
      rcases List.mem_map.mp hop with ⟨fk, _, rfl⟩
      simp [touchesFKview, hne]
  unfold planDiff
  simp only [List.filter_append, h0, h1, h2, h3, h4, h5, h6, h7, h8, h9, h10, h11,
    h12, h13, h14, h15, h16]
  rfl

/-- C8: Foreign-key retarget.  Foreign-key identity is the local column
name (at most one foreign key per local column, part of schema
well-formedness).  When the desired schema changes the target of the
existing foreign key on a column, the plan drops and re-adds the foreign
key on that column, and after a successful run exactly one foreign key
exists on that local column, referencing the new target. -/
theorem c8_fk_retarget (db desired db' : Schema) (plan : List Op) (tn c : String)
    (lt dt : Table) (lfk dfk : ForeignKey)
    (hWFdb : db.WF) (hWFd : desired.WF)
    (hlt : findTable (reflect db) tn = some lt) (hdt : findTable desired tn = some dt)
    (hlfk : fkByLocal lt c = some lfk) (hdfk : fkByLocal dt c = some dfk)
    (hretarget : lfk.foreignTable ≠ dfk.foreignTable ∨
      lfk.foreignCol ≠ dfk.foreignCol)
    (hrun : runEngine db desired = .ok (db', plan)) :
    Op.dropForeignKey tn c ∈ plan ∧ Op.addForeignKey tn dfk ∈ plan ∧
    fksOn db' tn c = [dfk] := by
  obtain ⟨d, hd, hplan, happ⟩ := runEngine_ok_parts hrun
  have hlnd : (tableNames (reflect db)).Nodup := by
    refine ((List.filter_sublist _).map (fun t : Table => t.name)).nodup ?_
    simpa [tableNames] using hWFdb.1
  have hltmem : lt ∈ db.tables :=
    List.mem_of_mem_filter (List.mem_of_find?_eq_some hlt)
  have hdtmem : dt ∈ desired.tables := List.mem_of_find?_eq_some hdt
  have hltnd : (lt.foreignKeys.map (fun fk => fk.localCol)).Nodup :=
    (hWFdb.2.2 lt hltmem).2.1
  have hdtnd : (dt.foreignKeys.map (fun fk => fk.localCol)).Nodup :=
    (hWFd.2.2 dt hdtmem).2.1
  have hdc : dfk.localCol = c := by have := List.find?_some hdfk; simpa using this
  have hfilter := planDiff_filter_fkview hd hlnd hWFd.1 hlt hdt hltnd hdtnd hlfk
    hdfk hretarget
  rw [← hplan] at hfilter
  refine ⟨?_, ?_, ?_⟩
  · have : Op.dropForeignKey tn c ∈ plan.filter (touchesFKview tn c) := by
      rw [hfilter]; exact List.mem_cons_self _ _
    exact List.mem_of_mem_filter this
  · have : Op.addForeignKey tn dfk ∈ plan.filter (touchesFKview tn c) := by
      rw [hfilter]
      exact List.mem_cons_of_mem _ (List.mem_cons_self _ _)
    exact List.mem_of_mem_filter this
  · exact fksOn_apply_two_step happ hfilter hdc

def exPlanFk : List Op :=
  [Op.dropForeignKey "posts" "user_id",
   Op.addForeignKey "posts"
     { localCol := "user_id", foreignTable := "authors", foreignCol := "id" }]

/-! ## Tracking a newly created table through a plan -/

/-- Whether an operation acts on the table named `tn`. -/
def touchesTable (tn : String) (op : Op) : Bool :=
  op.tableName? == some tn

theorem findTable_preserved_plan {db db' : Schema} {ops : List Op} {tn : String}
    (h : applyPlan db ops = some db')
    (hfil : ops.filter (touchesTable tn) = []) :
    findTable db' tn = findTable db tn := by
  induction ops generalizing db with
  | nil =>
    simp only [applyPlan, Option.some.injEq] at h
    rw [← h]
  | cons op ops ih =>
    simp only [applyPlan] at h
    cases hop : applyOp db op with
    | none => rw [hop] at h; cases h
    | some db1 =>
      rw [hop] at h
      by_cases ht : touchesTable tn op = true
      · rw [List.filter_cons_of_pos ht] at hfil
        cases hfil
      · rw [List.filter_cons_of_neg (by simpa using ht)] at hfil
        rw [ih h hfil]
        exact applyOp_findTable_other hop (by simpa [touchesTable] using ht)

theorem find?_name_append_self {α : Type} (f : α → String) {l : List α} {x : α}
    {m : String} (hnone : l.find? (fun e => f e == m) = none) (hx : f x = m) :
    (l ++ [x]).find? (fun e => f e == m) = some x := by
  induction l with
  | nil => simp [List.find?_cons_of_pos, hx]
  | cons a tl ih =>
    have ha : (f a == m) = false := by
      have := List.find?_eq_none.mp hnone a (List.mem_cons_self _ _)
      simpa using this
    rw [List.find?_cons_of_neg _ (by simp [ha])] at hnone
    rw [List.cons_append, List.find?_cons_of_neg _ (by simp [ha])]
    exact ih hnone

theorem table_track_addFKs {db db' : Schema} {ops : List Op} {tn : String}
    {fks : List ForeignKey} {T : Table}
    (h : applyPlan db ops = some db')
    (hfil : ops.filter (touchesTable tn) =
      fks.map (fun fk => Op.addForeignKey tn fk))
    (hT : findTable db tn = some T) :
    findTable db' tn = some { T with foreignKeys := T.foreignKeys ++ fks } := by
  induction ops generalizing db fks T with
  | nil =>
    simp only [applyPlan, Option.some.injEq] at h
    cases hfks : fks with
    | cons fk fks' => rw [hfks] at hfil; cases hfil
    | nil =>
      subst hfks
      rw [← h, hT]
      simp
  | cons op ops ih =>
    simp only [applyPlan] at h
    cases hop : applyOp db op with
    | none => rw [hop] at h; cases h
    | some db1 =>
      rw [hop] at h
      by_cases ht : touchesTable tn op = true
      · rw [List.filter_cons_of_pos ht] at hfil
        cases hfks : fks with
        | nil => rw [hfks] at hfil; cases hfil
        | cons fk fks' =>
          rw [hfks] at hfil
          injection hfil with h1 h2
          subst h1
          rcases applyOp_addFK_effect hop with ⟨t0, h1', _, h3'⟩
          rw [hT] at h1'
          injection h1' with h1'
          subst h1'
          have := ih h h2 h3'
          rw [this]
          simp [hfks, List.append_assoc]
      · rw [List.filter_cons_of_neg (by simpa using ht)] at hfil
        have hT1 : findTable db1 tn = some T := by
          rw [applyOp_findTable_other hop (by simpa [touchesTable] using ht)]
          exact hT
        exact ih h hfil hT1

theorem table_track_create {db db' : Schema} {ops : List Op} {tn : String}
    {t0 : Table} {fks : List ForeignKey}
    (h : applyPlan db ops = some db')
    (hfil : ops.filter (touchesTable tn) =
      Op.createTable t0 :: fks.map (fun fk => Op.addForeignKey tn fk))
    (hname : t0.name = tn) :
    findTable db' tn = some { t0 with foreignKeys := t0.foreignKeys ++ fks } := by
  induction ops generalizing db with
  | nil => cases hfil
  | cons op ops ih =>
    simp only [applyPlan] at h
    cases hop : applyOp db op with
    | none => rw [hop] at h; cases h
    | some db1 =>
      rw [hop] at h
      by_cases ht : touchesTable tn op = true
      · rw [List.filter_cons_of_pos ht] at hfil
        injection hfil with h1 h2
        subst h1
        rcases applyOp_createTable hop with ⟨hnone, htab⟩
        have hT1 : findTable db1 tn = some t0 := by
          show db1.tables.find? (fun t => t.name == tn) = some t0
          rw [htab]
          refine find?_name_append_self (fun t : Table => t.name) ?_ hname
          rw [← hname]
          exact hnone
        exact table_track_addFKs h h2 hT1
      · rw [List.filter_cons_of_neg (by simpa using ht)] at hfil
        exact ih h hfil

theorem filter_singleton_by_key {α : Type} {f : α → String} {l : List α} {a : α}
    {p : α → Bool} (hnd : (l.map f).Nodup) (hmem : a ∈ l) (hp : p a = true)
    (himp : ∀ x ∈ l, p x = true → f x = f a) : l.filter p = [a] := by
  induction l with
  | nil => cases hmem
  | cons b tl ih =>
    simp only [List.map_cons, List.nodup_cons] at hnd
    rcases List.mem_cons.mp hmem with rfl | hmemtl
    · rw [List.filter_cons_of_pos hp]
      have htl : tl.filter p = [] := by
        refine List.filter_eq_nil_iff.mpr (fun x hx hpx => ?_)
        exact hnd.1 (himp x (List.mem_cons_of_mem _ hx) hpx ▸ List.mem_map_of_mem f hx)
      rw [htl]
    · have hpb : p b = false := by
        cases hpb : p b with
        | false => rfl
        | true =>
          exact absurd
            (himp b (List.mem_cons_self _ _) hpb ▸ List.mem_map_of_mem f hmemtl)
            hnd.1
      rw [List.filter_cons_of_neg (by simp [hpb])]
      exact ih hnd.2 hmemtl (fun x hx hpx => himp x (List.mem_cons_of_mem _ hx) hpx)

theorem flatMap_eq_target {α β : Type} {l : List α} {f : α → String} {target : String}
    {g : α → List β} {lt : α}
    (hnd : (l.map f).Nodup) (hmem : lt ∈ l) (hf : f lt = target)
    (hother : ∀ x ∈ l, f x ≠ target → g x = []) :
    l.flatMap g = g lt := by
  induction l with
  | nil => cases hmem
  | cons a tl ih =>
    simp only [List.map_cons, List.nodup_cons] at hnd
    rcases List.mem_cons.mp hmem with rfl | hmemtl
    · have htl : tl.flatMap g = [] := by
        refine List.flatMap_eq_nil_iff.mpr (fun x hx => ?_)
        refine hother x (List.mem_cons_of_mem _ hx) (fun hc => ?_)
        exact hnd.1 (by rw [hf, ← hc]; exact List.mem_map_of_mem f hx)
      simp [htl]
    · have hga : g a = [] := by
        refine hother a (List.mem_cons_self _ _) (fun hc => ?_)
        refine hnd.1 ?_
        rw [hc, ← hf]
        exact List.mem_map_of_mem f hmemtl
      simp only [List.flatMap_cons, hga, List.nil_append]
      exact ih hnd.2 hmemtl (fun x hx hfx => hother x (List.mem_cons_of_mem _ hx) hfx)

theorem mem_tableDiffs {live desired : Schema} {d : SchemaDiff}
    (hd : computeDiff live desired = .ok d) {td : TableDiff}
    (htd : td ∈ d.tableDiffs) :
    ∃ t1 lt, t1 ∈ desired.tables ∧ findTable live t1.name = some lt ∧
      td.table = t1.name := by
  rw [(computeDiff_ok_parts hd).2.2.2.2.2] at htd
  rcases List.mem_filterMap.mp htd with ⟨t1, ht1, hmatch⟩
  cases hlt : findTable live t1.name with
  | none => rw [hlt] at hmatch; cases hmatch
  | some lt =>
    rw [hlt] at hmatch
    dsimp only at hmatch
    split at hmatch
    · cases hmatch
    · injection hmatch with hmatch
      exact ⟨t1, lt, ht1, hlt, by rw [← hmatch]; rfl⟩

/-- In a plan for a run that creates table `t` (absent live, present in
desired), the only operations acting on `t` are one `CreateTable`
without foreign keys followed by one `AddForeignKey` per declared
foreign key, in declaration order. -/
theorem planDiff_filter_newTable {live desired : Schema} {d : SchemaDiff} {t : Table}
    (hd : computeDiff live desired = .ok d)
    (hdnd : (tableNames desired).Nodup)
    (hnew : findTable live t.name = none) (hdes : findTable desired t.name = some t) :
    (planDiff live desired d).filter (touchesTable t.name) =
      Op.createTable { t with foreignKeys := [] } ::
        t.foreignKeys.map (fun fk => Op.addForeignKey t.name fk) := by
  have htmem : t ∈ desired.tables := List.mem_of_find?_eq_some hdes
  have htnotlive : t.name ∉ tableNames live := findTable_eq_none_iff.mp hnew
  have htdne : ∀ td ∈ d.tableDiffs, td.table ≠ t.name := by
    intro td htd hc
    rcases mem_tableDiffs hd htd with ⟨t1, lt, ht1, hlt, hname⟩
    apply htnotlive
    rw [← hc, hname]
    exact findTable_isSome_iff.mp (by rw [hlt]; rfl)
  have h0 : (createEnumOps d).filter (touchesTable t.name) = [] :=
    List.filter_eq_nil_iff.mpr (fun op hop => by
      rcases List.mem_map.mp hop with ⟨e, _, rfl⟩
      simp [touchesTable, Op.tableName?])
  have h1 : (addEnumValueOps d).filter (touchesTable t.name) = [] :=
    List.filter_eq_nil_iff.mpr (fun op hop => by
      rcases List.mem_map.mp hop with ⟨p, _, rfl⟩
      simp [touchesTable, Op.tableName?])
  have h16 : (dropEnumOps d).filter (touchesTable t.name) = [] :=
    List.filter_eq_nil_iff.mpr (fun op hop => by
      rcases List.mem_map.mp hop with ⟨n, _, rfl⟩
      simp [touchesTable, Op.tableName?])
  have h2 : (dropFKOps live desired).filter (touchesTable t.name) = [] :=
    List.filter_eq_nil_iff.mpr (fun op hop => by
      rcases List.mem_flatMap.mp hop with ⟨t0, ht0, hm⟩
      rcases List.mem_map.mp hm with ⟨fk, _, rfl⟩
      have hne : t0.name ≠ t.name := fun hc =>
        htnotlive (hc ▸ List.mem_map_of_mem (fun t : Table => t.name) ht0)
      simp [touchesTable, Op.tableName?, hne])
  have h3 : (dropIndexOps d).filter (touchesTable t.name) = [] :=
    List.filter_eq_nil_iff.mpr (fun op hop => by
      rcases List.mem_flatMap.mp hop with ⟨td, htd, hm⟩
      rcases List.mem_map.mp hm with ⟨x, _, rfl⟩
      simp [touchesTable, Op.tableName?, htdne td htd])
  have h4 : (dropUniqueOps d).filter (touchesTable t.name) = [] :=
    List.filter_eq_nil_iff.mpr (fun op hop => by
      rcases List.mem_flatMap.mp hop with ⟨td, htd, hm⟩
      rcases List.mem_map.mp hm with ⟨x, _, rfl⟩
      simp [touchesTable, Op.tableName?, htdne td htd])
  have h5 : (dropColumnOps d).filter (touchesTable t.name) = [] :=
    List.filter_eq_nil_iff.mpr (fun op hop => by
      rcases List.mem_flatMap.mp hop with ⟨td, htd, hm⟩
      rcases List.mem_map.mp hm with ⟨x, _, rfl⟩
      simp [touchesTable, Op.tableName?, htdne td htd])
  have h8 : (alterTypeOps d).filter (touchesTable t.name) = [] :=
    List.filter_eq_nil_iff.mpr (fun op hop => by
      rcases List.mem_flatMap.mp hop with ⟨td, htd, hm⟩
      rcases List.mem_map.mp hm with ⟨x, _, rfl⟩
      simp [touchesTable, Op.tableName?, htdne td htd])
  have h9 : (alterNullableOps d).filter (touchesTable t.name) = [] :=
    List.filter_eq_nil_iff.mpr (fun op hop => by
      rcases List.mem_flatMap.mp hop with ⟨td, htd, hm⟩
      rcases List.mem_map.mp hm with ⟨x, _, rfl⟩
      simp [touchesTable, Op.tableName?, htdne td htd])
  have h10 : (alterDefaultOps d).filter (touchesTable t.name) = [] :=
    List.filter_eq_nil_iff.mpr (fun op hop => by
      rcases List.mem_flatMap.mp hop with ⟨td, htd, hm⟩
      rcases List.mem_map.mp hm with ⟨x, _, rfl⟩
      simp [touchesTable, Op.tableName?, htdne td htd])
  have h11 : (addColumnOps d).filter (touchesTable t.name) = [] :=
    List.filter_eq_nil_iff.mpr (fun op hop => by
      rcases List.mem_flatMap.mp hop with ⟨td, htd, hm⟩
      rcases List.mem_map.mp hm with ⟨x, _, rfl⟩
      simp [touchesTable, Op.tableName?, htdne td htd])
  have h12 : (addUniqueOps d).filter (touchesTable t.name) = [] :=
    List.filter_eq_nil_iff.mpr (fun op hop => by
      rcases List.mem_flatMap.mp hop with ⟨td, htd, hm⟩
      rcases List.mem_map.mp hm with ⟨x, _, rfl⟩
      simp [touchesTable, Op.tableName?, htdne td htd])
  have h13 : (addIndexOps d).filter (touchesTable t.name) = [] :=
    List.filter_eq_nil_iff.mpr (fun op hop => by
      rcases List.mem_flatMap.mp hop with ⟨td, htd, hm⟩
      rcases List.mem_map.mp hm with ⟨x, _, rfl⟩
      simp [touchesTable, Op.tableName?, htdne td htd])
  have h14 : (changePKOps d).filter (touchesTable t.name) = [] :=
    List.filter_eq_nil_iff.mpr (fun op hop => by
      rcases List.mem_flatMap.mp hop with ⟨td, htd, hm⟩
      cases hpk : td.changePK with
      | some cols =>
        rw [hpk, List.mem_singleton] at hm
        subst hm
        simp [touchesTable, Op.tableName?, htdne td htd]
      | none => rw [hpk] at hm; cases hm)
  have h6 : (dropTableOps d).filter (touchesTable t.name) = [] :=
    List.filter_eq_nil_iff.mpr (fun op hop => by
      rcases List.mem_map.mp hop with ⟨m, hm, rfl⟩
      have hmlive := ((mem_dropTables hd).mp hm).1
      have hne : m ≠ t.name := fun hc => htnotlive (hc ▸ hmlive)
      simp [touchesTable, Op.tableName?, hne])
  have hctmem : t ∈ d.createTables := by
    rw [(computeDiff_ok_parts hd).1]
    exact List.mem_filter.mpr ⟨htmem, by simp [hnew]⟩
  have hctnd : (d.createTables.map (fun t : Table => t.name)).Nodup := by
    rw [(computeDiff_ok_parts hd).1]
    refine ((List.filter_sublist _).map (fun t : Table => t.name)).nodup ?_
    simpa [tableNames] using hdnd
  have h7 : (createTableOps d).filter (touchesTable t.name) =
      [Op.createTable { t with foreignKeys := [] }] := by
    have hsing : d.createTables.filter
        (touchesTable t.name ∘ fun t => Op.createTable { t with foreignKeys := [] })
        = [t] :=
      filter_singleton_by_key (f := fun t : Table => t.name) hctnd hctmem
        (by simp [Function.comp, touchesTable, Op.tableName?])
        (fun x _ hx => by
          simpa [Function.comp, touchesTable, Op.tableName?] using hx)
    unfold createTableOps
    rw [List.filter_map, hsing]
    rfl
  have h15 : (addFKOps live desired).filter (touchesTable t.name) =
      t.foreignKeys.map (fun fk => Op.addForeignKey t.name fk) := by
    have hother : ∀ x ∈ desired.tables, x.name ≠ t.name →
        ((x.foreignKeys.filter (shouldAddFK live desired x)).map
          (fun fk => Op.addForeignKey x.name fk)).filter (touchesTable t.name) = [] := by
      intro x _ hne
      refine List.filter_eq_nil_iff.mpr (fun op hop => ?_)
      rcases List.mem_map.mp hop with ⟨fk, _, rfl⟩
      simp [touchesTable, Op.tableName?, hne]
    have htgt := flatMap_eq_target (f := fun t : Table => t.name)
      (g := fun x => ((x.foreignKeys.filter (shouldAddFK live desired x)).map
        (fun fk => Op.addForeignKey x.name fk)).filter (touchesTable t.name))
      (by simpa [tableNames] using hdnd) htmem rfl hother
    unfold addFKOps
    rw [filter_flatMap, htgt]
    dsimp only
    have hall : t.foreignKeys.filter (shouldAddFK live desired t) = t.foreignKeys :=
      List.filter_eq_self.mpr (fun fk _ => by simp [shouldAddFK, hnew])
    rw [hall]
    refine List.filter_eq_self.mpr (fun op hop => ?_)
    rcases List.mem_map.mp hop with ⟨fk, _, rfl⟩
    simp [touchesTable, Op.tableName?]
  unfold planDiff
  simp only [List.filter_append, h0, h1, h2, h3, h4, h5, h6, h7, h8, h9, h10, h11,
    h12, h13, h14, h15, h16, List.nil_append, List.append_nil, List.cons_append,
    List.append_assoc]

/-- C9: Circular foreign keys.  New tables are created first without
their foreign keys — every `CreateTable` in any plan carries no foreign
keys — and the foreign keys are added afterwards as a separate pass
(every `CreateTable` precedes every `AddForeignKey`).  After a
successful run, each newly created table exists and carries exactly its
declared foreign keys, which makes cyclic foreign-key dependencies
among new tables realizable. -/
theorem c9_circular_fks (db desired db' : Schema) (plan : List Op) (t : Table)
    (hdnd : (tableNames desired).Nodup)
    (hnew : findTable (reflect db) t.name = none)
    (hdes : findTable desired t.name = some t)
    (hrun : runEngine db desired = .ok (db', plan)) :
    (∀ t', Op.createTable t' ∈ plan → t'.foreignKeys = []) ∧
    Op.createTable { t with foreignKeys := [] } ∈ plan ∧
    (∀ fk ∈ t.foreignKeys, Op.addForeignKey t.name fk ∈ plan) ∧
    (∀ (i j : Nat) (t1 : Table) (tb : String) (fk : ForeignKey),
      plan[i]? = some (Op.createTable t1) →
      plan[j]? = some (Op.addForeignKey tb fk) → i < j) ∧
    findTable db' t.name = some t := by
  obtain ⟨d, hd, hplan, happ⟩ := runEngine_ok_parts hrun
  have hfilter := planDiff_filter_newTable hd hdnd hnew hdes
  rw [← hplan] at hfilter
  refine ⟨?_, ?_, ?_, ?_, ?_⟩
  · intro t' hmem
    rw [hplan] at hmem
    rcases createTable_mem_plan hmem with ⟨t0, _, rfl⟩
    rfl
  · exact List.mem_of_mem_filter (by rw [hfilter]; exact List.mem_cons_self _ _)
  · intro fk hfk
    refine List.mem_of_mem_filter (p := touchesTable t.name) ?_
    rw [hfilter]
    exact List.mem_cons_of_mem _
      (List.mem_map_of_mem (fun fk => Op.addForeignKey t.name fk) hfk)
  · intro i j t1 tb fk ha hb
    rw [hplan] at ha hb
    exact rank_lt_of_getElem (planDiff_rank_sorted _ _ _) ha hb (by simp [Op.rank])
  · have htrack := table_track_create happ hfilter rfl
    rw [htrack]
    rfl

def exDept : Table :=
  { name := "departments"
    columns := [
      { name := "id", type := .integer, nullable := false, default := none,
        identity := true },
      { name := "manager_id", type := .integer, nullable := true, default := none,
        identity := false }]
    primaryKey := ["id"]
    uniques := []
    indexes := []
    foreignKeys :=
      [{ localCol := "manager_id", foreignTable := "employees", foreignCol := "id" }] }

def exEmp : Table :=
  { name := "employees"
    columns := [
      { name := "id", type := .integer, nullable := false, default := none,
        identity := true },
      { name := "department_id", type := .integer, nullable := true, default := none,
        identity := false }]
    primaryKey := ["id"]
    uniques := []
    indexes := []
    foreignKeys :=
      [{ localCol := "department_id", foreignTable := "departments",
         foreignCol := "id" }] }

def exDbEmpty : Schema := { tables := [], enums := [] }

def exWantCirc : Schema := { tables := [exDept, exEmp], enums := [] }

def exPlanCirc : List Op :=
  [Op.createTable { exDept with foreignKeys := [] },
   Op.createTable { exEmp with foreignKeys := [] },
   Op.addForeignKey "departments"
     { localCol := "manager_id", foreignTable := "employees", foreignCol := "id" },
   Op.addForeignKey "employees"
     { localCol := "department_id", foreignTable := "departments",
       foreignCol := "id" }]

/-- Witness for C9 on the circular `departments`/`employees` scenario. -/
theorem c9_circular_fks_witness :
    (∀ t', Op.createTable t' ∈ exPlanCirc → t'.foreignKeys = []) ∧
    Op.createTable { exDept with foreignKeys := [] } ∈ exPlanCirc ∧
    (∀ fk ∈ exDept.foreignKeys, Op.addForeignKey exDept.name fk ∈ exPlanCirc) ∧
    (∀ (i j : Nat) (t1 : Table) (tb : String) (fk : ForeignKey),
      exPlanCirc[i]? = some (Op.createTable t1) →
      exPlanCirc[j]? = some (Op.addForeignKey tb fk) → i < j) ∧
    findTable exWantCirc exDept.name = some exDept :=
  c9_circular_fks exDbEmpty exWantCirc exWantCirc exPlanCirc exDept
    (by decide) rfl rfl rfl

/-- Witness for C8: retargeting the foreign key on the column
`posts.user_id` leaves exactly one foreign key on it, referencing
`authors.id`. -/
theorem c8_fk_retarget_witness :
    Op.dropForeignKey "posts" "user_id" ∈ exPlanFk ∧
    Op.addForeignKey "posts"
      { localCol := "user_id", foreignTable := "authors", foreignCol := "id" } ∈
        exPlanFk ∧
    fksOn exWantFk "posts" "user_id" =
      [{ localCol := "user_id", foreignTable := "authors", foreignCol := "id" }] :=
  c8_fk_retarget exDbFk exWantFk exWantFk exPlanFk "posts" "user_id"
    exPosts exPostsToAuthors
    { localCol := "user_id", foreignTable := "users", foreignCol := "id" }
    { localCol := "user_id", foreignTable := "authors", foreignCol := "id" }
    (by decide) (by decide) rfl rfl rfl rfl (Or.inl (by decide)) rfl

/-- Witness for C6: a failing run (enum label removal) rolls back, and a
successful run commits exactly its plan. -/
theorem c6_executor_atomicity_witness :
    (exDbEnum = exDbEnum ∧ ([] : List Op) = []) ∧
    (∃ d, computeDiff (reflect exDb1) exDb1 = .ok d ∧
      ([] : List Op) = planDiff (reflect exDb1) exDb1 d ∧
      applyPlan exDb1 [] = some exDb1) :=
  ⟨(c6_executor_atomicity exDbEnum exWantBadEnum exDbEnum []
      (some (.unsupportedDiff "status")) rfl).1 _ rfl,
   (c6_executor_atomicity exDb1 exDb1 exDb1 [] none rfl).2 rfl⟩

end Deepsel
